import Mathlib

/-!
# numserv: the merge primitive and the slot table

A shallow embedding of `numserv.go`: `mergeUnique`, the slot table operations
`putNumbers`, `mergeIndexAndNumbers`, `mergeTwoIndexes`, `findPairs`, and the
state machine obtained by taking each of them atomically.

Go slices of `int` are lists of `Int`; an index out of range (a run-time panic
in Go) is the value `none`.
-/

namespace Numserv

/-! ## mergeUnique -/

/-- One write into the destination slice of `mergeUnique`:
`c[k] = v; if !(k > 0 && c[k-1] == c[k]) { k++ }`.
The list is the written prefix `c[:k]`; its last element is `c[k-1]`. -/
def emit (c : List Int) (v : Int) : List Int :=
  if c.getLast? = some v then c else c ++ [v]

/-- The first loop of `mergeUnique`, `for i < len(a) && j < len(b)`.
The arguments are `a[i:]`, `b[j:]` and `c[:k]`; the result is the same three
values when the loop exits. -/
def mergeLoop : List Int → List Int → List Int → List Int × List Int × List Int
  | x :: xs, y :: ys, c =>
    if x < y then mergeLoop xs (y :: ys) (emit c x)
    else mergeLoop (x :: xs) ys (emit c y)
  | a, b, c => (a, b, c)
termination_by a b _ => a.length + b.length

/-- The second and third loops of `mergeUnique`, `for i < len(a)` and then
`for j < len(b)`, run on what the first loop left: `(a[i:], b[j:], c[:k])`.
The result is `c[:k]` after both, which is the slice `d` the function returns. -/
def drain (r : List Int × List Int × List Int) : List Int :=
  r.2.1.foldl emit (r.1.foldl emit r.2.2)

/-- The function `mergeUnique(a, b)`: the three loops, started with `i, j, k := 0, 0, 0`. -/
def mergeUnique (a b : List Int) : List Int :=
  drain (mergeLoop a b [])

/-! ## The slot table -/

/-- The constants `FREE`, `READY` and `MERGING`, the only values the field `state` is
ever given. -/
inductive SlotState
  | FREE
  | READY
  | MERGING
deriving DecidableEq

open SlotState

/-- The struct `StateNums`. A nil slice and an empty slice are both the empty list. -/
structure StateNums where
  state : SlotState
  Numbers : List Int
deriving DecidableEq

/-- The type `Container`, a slice of `StateNums`. -/
abbrev Container := List StateNums

/-- A goroutine started by a `go` statement of `putNumbers` or `findPairs`, with the
arguments it was started with. -/
inductive Launched
  | mergeIndexAndNumbers (indexA : Nat) (numsB : List Int)
  | mergeTwoIndexes (indexA indexB : Nat)
deriving DecidableEq

/-- What one call did: the table it leaves, the number of sends on the `count`
channel, and the goroutine it started, if any. -/
structure Outcome where
  container : Container
  sent : Nat
  launched : Option Launched
deriving DecidableEq

/-- The assignment `container[i].state = st`; `none` when `i` is out of range. -/
def setState (container : Container) (i : Nat) (st : SlotState) : Option Container :=
  match container[i]? with
  | some s => some (container.set i { s with state := st })
  | none => none

/-- The loop `for i := 1; i < len(numbers); i++` of `putNumbers`: the first argument is
`numbers[i-1]`, the second is `numbers[i:]`, and the result is what the loop writes
to `numbersUnique[1:j]`. -/
def uniqueLoop : Int → List Int → List Int
  | _, [] => []
  | prev, x :: xs => if prev ≠ x then x :: uniqueLoop x xs else uniqueLoop x xs

/-- A loop `for i, statenums := range container` that stops at the first slot whose
state is `st`: the arguments are `container[i:]` and `i`, the result is the index
at which the loop breaks, or `none` when it runs to the end. -/
def firstIndex (st : SlotState) : List StateNums → Nat → Option Nat
  | [], _ => none
  | statenums :: rest, i =>
    if statenums.state = st then some i else firstIndex st rest (i + 1)

/-- The function `putNumbers(container, count, numbers)`, the lock held throughout.
`container[0]`, `numbers[0]` and `numbersUnique[0]` are indexed without a length
check, so an empty table, or an empty `numbers` when slot zero is `FREE`, is a
run-time panic: `none`. -/
def putNumbers (container : Container) (numbers : List Int) : Option Outcome :=
  match container with
  | [] => none
  | s0 :: rest =>
    if s0.state = FREE then
      match numbers with
      | [] => none
      | x :: xs => some ⟨⟨READY, x :: uniqueLoop x xs⟩ :: rest, 1, none⟩
    else
      match firstIndex READY container 0 with
      | some i =>
        (setState container i MERGING).map fun c =>
          ⟨c, 0, some (Launched.mergeIndexAndNumbers i numbers)⟩
      | none =>
        match firstIndex FREE container 0 with
        | some i => some ⟨container.set i ⟨READY, numbers⟩, 0, none⟩
        | none => some ⟨container, 0, none⟩

/-- The function `mergeIndexAndNumbers(container, indexA, numsB, count)` up to and
including `count <- true`; the call of `findPairs` that follows is a step of its own. -/
def mergeIndexAndNumbers (container : Container) (indexA : Nat) (numsB : List Int) :
    Option Outcome :=
  match container[indexA]? with
  | some sA => some ⟨container.set indexA ⟨READY, mergeUnique sA.Numbers numsB⟩, 1, none⟩
  | none => none

/-- The function `mergeTwoIndexes(container, indexA, indexB, count)` up to and including
`count <- true`; the call of `findPairs` that follows is a step of its own. -/
def mergeTwoIndexes (container : Container) (indexA indexB : Nat) : Option Outcome :=
  match container[indexA]?, container[indexB]? with
  | some sA, some sB =>
    (setState (container.set indexA ⟨READY, mergeUnique sA.Numbers sB.Numbers⟩)
      indexB FREE).map fun c => ⟨c, 1, none⟩
  | _, _ => none

/-- The loop of `findPairs`: the arguments are `container[i:]`, `i`, `indexASet` and
`indexA`; the result is the pair `(indexA, i)` at which the loop breaks, or `none` when
it runs to the end. -/
def findPairsLoop : List StateNums → Nat → Bool → Nat → Option (Nat × Nat)
  | [], _, _, _ => none
  | statenums :: rest, i, indexASet, indexA =>
    if statenums.state = READY ∧ indexASet = false then
      findPairsLoop rest (i + 1) true i
    else if statenums.state = READY ∧ indexASet = true then
      some (indexA, i)
    else
      findPairsLoop rest (i + 1) indexASet indexA

/-- The function `findPairs(container, count)`, the lock held throughout. -/
def findPairs (container : Container) : Option Outcome :=
  match findPairsLoop container 0 false 0 with
  | some (indexA, i) =>
    (setState container indexA MERGING).bind fun c1 =>
      (setState c1 i MERGING).map fun c2 =>
        ⟨c2, 0, some (Launched.mergeTwoIndexes indexA i)⟩
  | none => some ⟨container, 0, none⟩

/-- The call `sort.Ints` of the Go standard library: the ascending rearrangement. -/
def sortInts (l : List Int) : List Int :=
  l.insertionSort (· ≤ ·)

/-! ## The state machine of one request -/

/-- The state of one request: the table, the sends on `count` so far, the merges
started and not yet completed, the number of completed merges that have not yet made
their call of `findPairs`, and the history of the sources: how many failed, and the
sequences handed to `putNumbers` (latest first). -/
structure Sys where
  container : Container
  count : Nat
  merges : List Launched
  pending : Nat
  failed : Nat
  arrived : List (List Int)
deriving DecidableEq

/-- The number of sources whose outcome has been processed. -/
def Sys.processed (s : Sys) : Nat :=
  s.failed + s.arrived.length

/-- The table of `main`: `numOfURLs` slots, or one slot when `numOfURLs` is zero; every
slot is the zero value (`FREE`), and `container[0].Numbers` is the empty slice. -/
def Sys.init (numOfURLs : Nat) : Sys :=
  { container := List.replicate (if numOfURLs = 0 then 1 else numOfURLs) ⟨FREE, []⟩
    count := 0
    merges := []
    pending := 0
    failed := 0
    arrived := [] }

/-- One atomic step of a request with `numOfURLs` sources. A call that panics has no
successor state. -/
inductive Step (numOfURLs : Nat) : Sys → Sys → Prop
  /-- A source fails in `getNumbers`: `count <- true` and nothing else. -/
  | fail (s : Sys) (h : s.processed < numOfURLs) :
      Step numOfURLs s { s with count := s.count + 1, failed := s.failed + 1 }
  /-- A source succeeds: `getNumbers` sorts the decoded list and calls `putNumbers`. -/
  | arrive (s : Sys) (decoded : List Int) (r : Outcome) (h : s.processed < numOfURLs)
      (hr : putNumbers s.container (sortInts decoded) = some r) :
      Step numOfURLs s
        { s with
          container := r.container
          count := s.count + r.sent
          merges := r.launched.toList ++ s.merges
          arrived := sortInts decoded :: s.arrived }
  /-- A started `mergeIndexAndNumbers` completes. -/
  | completeIndexAndNumbers (s : Sys) (indexA : Nat) (numsB : List Int) (r : Outcome)
      (hm : Launched.mergeIndexAndNumbers indexA numsB ∈ s.merges)
      (hr : mergeIndexAndNumbers s.container indexA numsB = some r) :
      Step numOfURLs s
        { s with
          container := r.container
          count := s.count + r.sent
          merges := s.merges.erase (Launched.mergeIndexAndNumbers indexA numsB)
          pending := s.pending + 1 }
  /-- A started `mergeTwoIndexes` completes. -/
  | completeTwoIndexes (s : Sys) (indexA indexB : Nat) (r : Outcome)
      (hm : Launched.mergeTwoIndexes indexA indexB ∈ s.merges)
      (hr : mergeTwoIndexes s.container indexA indexB = some r) :
      Step numOfURLs s
        { s with
          container := r.container
          count := s.count + r.sent
          merges := s.merges.erase (Launched.mergeTwoIndexes indexA indexB)
          pending := s.pending + 1 }
  /-- A completed merge makes its call of `findPairs`. -/
  | findPairs (s : Sys) (r : Outcome) (hp : 0 < s.pending)
      (hr : findPairs s.container = some r) :
      Step numOfURLs s
        { s with
          container := r.container
          count := s.count + r.sent
          merges := r.launched.toList ++ s.merges
          pending := s.pending - 1 }

/-- The states a request with `numOfURLs` sources can be in. -/
inductive Reachable (numOfURLs : Nat) : Sys → Prop
  | init : Reachable numOfURLs (Sys.init numOfURLs)
  | step (s t : Sys) (hs : Reachable numOfURLs s) (ht : Step numOfURLs s t) :
      Reachable numOfURLs t

/-- No merge is in flight and no call of `findPairs` is pending. -/
def Sys.quiescent (s : Sys) : Prop :=
  s.merges = [] ∧ s.pending = 0

instance (s : Sys) : Decidable s.quiescent := by
  unfold Sys.quiescent
  infer_instance

/-! ## Invariants of the state machine -/

/-- The slot indices a started merge reads and writes. -/
def Launched.refs : Launched → List Nat
  | Launched.mergeIndexAndNumbers indexA _ => [indexA]
  | Launched.mergeTwoIndexes indexA indexB => [indexA, indexB]

/-- Whether a started merge is a `mergeIndexAndNumbers`, which carries the sequence of a
source not yet accounted for on `count`. -/
def Launched.carries : Launched → Bool
  | Launched.mergeIndexAndNumbers _ _ => true
  | Launched.mergeTwoIndexes _ _ => false

/-- The number of slots that are not `FREE`. -/
def nonFree (container : Container) : Nat :=
  container.countP fun slot => decide (slot.state ≠ FREE)

/-- The integer `x` is held by the table: it is in a slot that is not `FREE`, or in the
sequence carried by a started `mergeIndexAndNumbers`. -/
def held (container : Container) (merges : List Launched) (x : Int) : Prop :=
  (∃ (i : Nat) (slot : StateNums),
      container[i]? = some slot ∧ slot.state ≠ FREE ∧ x ∈ slot.Numbers) ∨
    ∃ (i : Nat) (B : List Int), Launched.mergeIndexAndNumbers i B ∈ merges ∧ x ∈ B

/-- The invariant of a request with `numOfURLs` sources. -/
structure Inv (numOfURLs : Nat) (s : Sys) : Prop where
  /-- The table keeps the length `main` gave it. -/
  len : s.container.length = if numOfURLs = 0 then 1 else numOfURLs
  /-- Every slot holds a sequence in non-decreasing order. -/
  sortedSlots : ∀ (i : Nat) (slot : StateNums), s.container[i]? = some slot →
    slot.Numbers.Sorted (· ≤ ·)
  /-- Slot zero holds a strictly ascending sequence. -/
  sortedZero : ∀ slot : StateNums, s.container[0]? = some slot → slot.Numbers.Sorted (· < ·)
  /-- Every sequence carried by a started merge is in non-decreasing order. -/
  sortedMerges : ∀ (i : Nat) (B : List Int),
    Launched.mergeIndexAndNumbers i B ∈ s.merges → B.Sorted (· ≤ ·)
  /-- Every slot a started merge refers to is `MERGING`. -/
  refsMerging : ∀ m ∈ s.merges, ∀ i ∈ m.refs,
    ∃ slot : StateNums, s.container[i]? = some slot ∧ slot.state = MERGING
  /-- No started merge is listed twice. -/
  mergesNodup : s.merges.Nodup
  /-- Two started merges that refer to the same slot are the same merge. -/
  exclusive : ∀ m1 ∈ s.merges, ∀ m2 ∈ s.merges, ∀ i : Nat, i ∈ m1.refs → i ∈ m2.refs → m1 = m2
  /-- Every `MERGING` slot is referred to by a started merge. -/
  mergingRef : ∀ (i : Nat) (slot : StateNums), s.container[i]? = some slot →
    slot.state = MERGING → ∃ m ∈ s.merges, i ∈ m.refs
  /-- A started `mergeTwoIndexes` has `indexA < indexB`. -/
  ordered : ∀ i j : Nat, Launched.mergeTwoIndexes i j ∈ s.merges → i < j
  /-- While slot zero is `FREE`, every slot is. -/
  zeroFirst : ∀ s0 : StateNums, s.container[0]? = some s0 → s0.state = FREE →
    ∀ (i : Nat) (slot : StateNums), s.container[i]? = some slot → slot.state = FREE
  /-- While slot zero is `FREE` it holds the empty slice `main` gave it, and no sequence
  has been handed over. -/
  freshZero : ∀ s0 : StateNums, s.container[0]? = some s0 → s0.state = FREE →
    s0.Numbers = [] ∧ s.arrived = []
  /-- Two `READY` slots are never left alone: a merge is in flight or a call of
  `findPairs` is pending. -/
  readyPair : ∀ (i j : Nat) (si sj : StateNums), i ≠ j → s.container[i]? = some si →
    s.container[j]? = some sj → si.state = READY → sj.state = READY →
    s.merges ≠ [] ∨ 0 < s.pending
  /-- There are at most as many occupied slots as sequences handed over. -/
  occupied : nonFree s.container ≤ s.arrived.length
  /-- Every processed source is accounted for: by a send on `count`, by a started
  `mergeIndexAndNumbers`, or by an occupied slot other than the first one occupied. -/
  conservation : s.count + s.merges.countP Launched.carries + nonFree s.container =
    s.processed + if nonFree s.container = 0 then 0 else 1
  /-- The table holds exactly the integers handed over. -/
  content : ∀ x : Int, held s.container s.merges x ↔ ∃ l ∈ s.arrived, x ∈ l

/-- The steps of `Step` with the result of every call written out as single-slot
writes. Every step of `Step` from a state satisfying `Inv` is one of these
(`Step.toMove`); the relation serves the proofs only. -/
inductive Move (numOfURLs : Nat) : Sys → Sys → Prop
  | fail (s : Sys) (h : s.processed < numOfURLs) :
      Move numOfURLs s { s with count := s.count + 1, failed := s.failed + 1 }
  | first (s : Sys) (s0 : StateNums) (x : Int) (xs : List Int)
      (h : s.processed < numOfURLs) (hsort : (x :: xs).Sorted (· ≤ ·))
      (h0 : s.container[0]? = some s0) (hfree : s0.state = FREE) :
      Move numOfURLs s
        { s with
          container := s.container.set 0 ⟨READY, x :: uniqueLoop x xs⟩
          count := s.count + 1
          arrived := (x :: xs) :: s.arrived }
  | partner (s : Sys) (numbers : List Int) (s0 : StateNums) (i : Nat) (si : StateNums)
      (h : s.processed < numOfURLs) (hsort : numbers.Sorted (· ≤ ·))
      (h0 : s.container[0]? = some s0) (hfree : s0.state ≠ FREE)
      (hi : s.container[i]? = some si) (hready : si.state = READY)
      (hmin : ∀ (j : Nat) (sj : StateNums), j < i → s.container[j]? = some sj →
        sj.state ≠ READY) :
      Move numOfURLs s
        { s with
          container := s.container.set i { si with state := MERGING }
          merges := Launched.mergeIndexAndNumbers i numbers :: s.merges
          arrived := numbers :: s.arrived }
  | park (s : Sys) (numbers : List Int) (s0 : StateNums) (i : Nat) (si : StateNums)
      (h : s.processed < numOfURLs) (hsort : numbers.Sorted (· ≤ ·))
      (h0 : s.container[0]? = some s0) (hfree : s0.state ≠ FREE)
      (hnone : ∀ (j : Nat) (sj : StateNums), s.container[j]? = some sj → sj.state ≠ READY)
      (hi : s.container[i]? = some si) (hifree : si.state = FREE)
      (hmin : ∀ (j : Nat) (sj : StateNums), j < i → s.container[j]? = some sj →
        sj.state ≠ FREE) :
      Move numOfURLs s
        { s with
          container := s.container.set i ⟨READY, numbers⟩
          arrived := numbers :: s.arrived }
  | drop (s : Sys) (numbers : List Int) (s0 : StateNums)
      (h : s.processed < numOfURLs) (hsort : numbers.Sorted (· ≤ ·))
      (h0 : s.container[0]? = some s0) (hfree : s0.state ≠ FREE)
      (hall : ∀ (j : Nat) (sj : StateNums), s.container[j]? = some sj →
        sj.state ≠ READY ∧ sj.state ≠ FREE) :
      Move numOfURLs s { s with arrived := numbers :: s.arrived }
  | doneIndexAndNumbers (s : Sys) (i : Nat) (B : List Int) (sA : StateNums)
      (hm : Launched.mergeIndexAndNumbers i B ∈ s.merges)
      (hA : s.container[i]? = some sA) :
      Move numOfURLs s
        { s with
          container := s.container.set i ⟨READY, mergeUnique sA.Numbers B⟩
          count := s.count + 1
          merges := s.merges.erase (Launched.mergeIndexAndNumbers i B)
          pending := s.pending + 1 }
  | doneTwoIndexes (s : Sys) (i j : Nat) (sA sB : StateNums)
      (hm : Launched.mergeTwoIndexes i j ∈ s.merges) (hlt : i < j)
      (hA : s.container[i]? = some sA) (hB : s.container[j]? = some sB) :
      Move numOfURLs s
        { s with
          container := (s.container.set i ⟨READY, mergeUnique sA.Numbers sB.Numbers⟩).set j
            ⟨FREE, sB.Numbers⟩
          count := s.count + 1
          merges := s.merges.erase (Launched.mergeTwoIndexes i j)
          pending := s.pending + 1 }
  | noPair (s : Sys) (hp : 0 < s.pending)
      (hone : ∀ (j1 j2 : Nat) (s1 s2 : StateNums), s.container[j1]? = some s1 →
        s.container[j2]? = some s2 → s1.state = READY → s2.state = READY → j1 = j2) :
      Move numOfURLs s { s with pending := s.pending - 1 }
  | pair (s : Sys) (a i : Nat) (sa si : StateNums) (hp : 0 < s.pending) (hlt : a < i)
      (ha : s.container[a]? = some sa) (hi : s.container[i]? = some si)
      (hra : sa.state = READY) (hri : si.state = READY)
      (hmin : ∀ (j : Nat) (sj : StateNums), j < i → j ≠ a → s.container[j]? = some sj →
        sj.state ≠ READY) :
      Move numOfURLs s
        { s with
          container := (s.container.set a { sa with state := MERGING }).set i
            { si with state := MERGING }
          merges := Launched.mergeTwoIndexes a i :: s.merges
          pending := s.pending - 1 }


/-! ## The reference merge of the specification -/

/-- The two-pointer merge as the specification words it, not taken from the code: emit
the smaller head and advance that pointer; when the two heads are equal emit one copy
and advance both pointers; when one input is used up, the rest of the other follows. -/
def referenceMerge : List Int → List Int → List Int
  | x :: xs, y :: ys =>
    if x < y then x :: referenceMerge xs (y :: ys)
    else if y < x then y :: referenceMerge (x :: xs) ys
    else x :: referenceMerge xs ys
  | [], ys => ys
  | xs, [] => xs
termination_by a b => a.length + b.length


/-! ## Facts about one write -/

theorem mem_emit (c : List Int) (v x : Int) : x ∈ emit c v ↔ x ∈ c ∨ x = v := by
  unfold emit
  split
  · rename_i h
    constructor
    · intro hx; exact Or.inl hx
    · rintro (hx | rfl)
      · exact hx
      · exact List.mem_of_getLast?_eq_some h
  · simp

theorem mem_foldl_emit (l c : List Int) (x : Int) :
    x ∈ l.foldl emit c ↔ x ∈ c ∨ x ∈ l := by
  induction l generalizing c with
  | nil => simp
  | cons v l ih =>
    simp only [List.foldl_cons, ih, mem_emit, List.mem_cons]
    tauto

theorem getLast?_emit (c : List Int) (v : Int) : (emit c v).getLast? = some v := by
  unfold emit
  split
  · assumption
  · simp

theorem chain_emit (c : List Int) (v : Int) (h : c.Chain' (· ≠ ·)) :
    (emit c v).Chain' (· ≠ ·) := by
  unfold emit
  split
  · exact h
  · rename_i hne
    refine List.Chain'.append h (List.chain'_singleton v) ?_
    intro x hx y hy
    simp only [List.head?_cons, Option.mem_def, Option.some.injEq] at hy
    subst hy
    intro hxy
    subst hxy
    exact hne hx

theorem chain_foldl_emit (l c : List Int) (h : c.Chain' (· ≠ ·)) :
    (l.foldl emit c).Chain' (· ≠ ·) := by
  induction l generalizing c with
  | nil => exact h
  | cons v l ih => exact ih _ (chain_emit c v h)

/-- In a strictly ascending list an element that bounds the list is its last element. -/
theorem getLast?_of_sorted_of_bound (c : List Int) (v : Int) (hs : c.Sorted (· < ·))
    (hv : v ∈ c) (hb : ∀ x ∈ c, x ≤ v) : c.getLast? = some v := by
  rcases List.eq_nil_or_concat c with rfl | ⟨c', l, rfl⟩
  · simp at hv
  · simp only [List.concat_eq_append] at hs hv hb ⊢
    rw [List.getLast?_concat]
    rcases List.mem_append.1 hv with h | h
    · have h1 : v < l := by
        have := List.pairwise_append.1 hs
        exact this.2.2 v h l (by simp)
      have h2 : l ≤ v := hb l (by simp)
      omega
    · rw [List.mem_singleton.1 h]

theorem sorted_emit (c : List Int) (v : Int) (hs : c.Sorted (· < ·))
    (hb : ∀ x ∈ c, x ≤ v) : (emit c v).Sorted (· < ·) := by
  unfold emit
  split
  · exact hs
  · rename_i hne
    refine List.pairwise_append.2 ⟨hs, List.pairwise_singleton _ _, ?_⟩
    intro x hx y hy
    simp only [List.mem_singleton] at hy
    subst hy
    rcases lt_or_eq_of_le (hb x hx) with h | h
    · exact h
    · subst h
      exact absurd (getLast?_of_sorted_of_bound c x hs hx hb) hne

theorem sorted_foldl_emit (l c : List Int) (hs : c.Sorted (· < ·))
    (hl : l.Sorted (· ≤ ·)) (hb : ∀ x ∈ c, ∀ y ∈ l, x ≤ y) :
    (l.foldl emit c).Sorted (· < ·) := by
  induction l generalizing c with
  | nil => exact hs
  | cons v l ih =>
    have hl' := List.sorted_cons.1 hl
    refine ih _ (sorted_emit c v hs fun x hx => hb x hx v (by simp)) hl'.2 ?_
    intro x hx y hy
    rcases (mem_emit c v x).1 hx with h | h
    · exact hb x h y (by simp [hy])
    · subst h
      exact hl'.1 y hy

theorem foldl_emit_of_chain (l c : List Int) (h : (c ++ l).Chain' (· ≠ ·)) :
    l.foldl emit c = c ++ l := by
  induction l generalizing c with
  | nil => simp
  | cons v l ih =>
    have hne : c.getLast? ≠ some v := by
      intro hlast
      rcases List.eq_nil_or_concat c with rfl | ⟨c', w, rfl⟩
      · simp at hlast
      · simp only [List.concat_eq_append] at h hlast
        rw [List.getLast?_concat, Option.some.injEq] at hlast
        subst hlast
        rw [List.append_assoc, List.chain'_append] at h
        have := h.2.1
        simp at this
    have he : emit c v = c ++ [v] := by
      unfold emit
      rw [if_neg hne]
    rw [List.foldl_cons, he, ih _ (by simpa using h)]
    simp

/-! ## Facts about the three loops -/

theorem mem_drain_mergeLoop (a b c : List Int) (x : Int) :
    x ∈ drain (mergeLoop a b c) ↔ x ∈ c ∨ x ∈ a ∨ x ∈ b := by
  induction a, b, c using mergeLoop.induct with
  | case1 x' xs y ys c h ih =>
    rw [mergeLoop, if_pos h, ih, mem_emit]
    simp only [List.mem_cons]
    tauto
  | case2 x' xs y ys c h ih =>
    rw [mergeLoop, if_neg h, ih, mem_emit]
    simp only [List.mem_cons]
    tauto
  | case3 a b c h =>
    rw [mergeLoop]
    · simp only [drain, mem_foldl_emit]
      tauto
    · exact h

theorem chain_drain_mergeLoop (a b c : List Int) (hc : c.Chain' (· ≠ ·)) :
    (drain (mergeLoop a b c)).Chain' (· ≠ ·) := by
  induction a, b, c using mergeLoop.induct with
  | case1 x' xs y ys c h ih =>
    rw [mergeLoop, if_pos h]
    exact ih (chain_emit c x' hc)
  | case2 x' xs y ys c h ih =>
    rw [mergeLoop, if_neg h]
    exact ih (chain_emit c y hc)
  | case3 a b c h =>
    rw [mergeLoop]
    · exact chain_foldl_emit _ _ (chain_foldl_emit _ _ hc)
    · exact h

theorem sorted_drain_mergeLoop (a b c : List Int) (ha : a.Sorted (· ≤ ·))
    (hb : b.Sorted (· ≤ ·)) (hc : c.Sorted (· < ·))
    (hca : ∀ x ∈ c, ∀ y ∈ a, x ≤ y) (hcb : ∀ x ∈ c, ∀ y ∈ b, x ≤ y) :
    (drain (mergeLoop a b c)).Sorted (· < ·) := by
  induction a, b, c using mergeLoop.induct with
  | case1 x' xs y ys c h ih =>
    rw [mergeLoop, if_pos h]
    have ha' := List.sorted_cons.1 ha
    have hb' := List.sorted_cons.1 hb
    refine ih ha'.2 hb (sorted_emit c x' hc fun x hx => hca x hx x' (by simp)) ?_ ?_
    · intro x hx z hz
      rcases (mem_emit c x' x).1 hx with h1 | h1
      · exact hca x h1 z (by simp [hz])
      · subst h1
        exact ha'.1 z hz
    · intro x hx z hz
      rcases (mem_emit c x' x).1 hx with h1 | h1
      · exact hcb x h1 z hz
      · subst h1
        rcases List.mem_cons.1 hz with h2 | h2
        · subst h2
          exact le_of_lt h
        · exact le_trans (le_of_lt h) (hb'.1 z h2)
  | case2 x' xs y ys c h ih =>
    rw [mergeLoop, if_neg h]
    have ha' := List.sorted_cons.1 ha
    have hb' := List.sorted_cons.1 hb
    have hyx : y ≤ x' := not_lt.1 h
    refine ih ha hb'.2 (sorted_emit c y hc fun x hx => hcb x hx y (by simp)) ?_ ?_
    · intro x hx z hz
      rcases (mem_emit c y x).1 hx with h1 | h1
      · exact hca x h1 z hz
      · subst h1
        rcases List.mem_cons.1 hz with h2 | h2
        · subst h2
          exact hyx
        · exact le_trans hyx (ha'.1 z h2)
    · intro x hx z hz
      rcases (mem_emit c y x).1 hx with h1 | h1
      · exact hcb x h1 z (by simp [hz])
      · subst h1
        exact hb'.1 z hz
  | case3 a b c h =>
    rw [mergeLoop]
    · unfold drain
      cases a with
      | nil =>
        exact sorted_foldl_emit b c hc hb hcb
      | cons x' xs =>
        cases b with
        | nil => exact sorted_foldl_emit _ c hc ha hca
        | cons y ys => exact absurd rfl (h x' xs y ys rfl)
    · exact h

theorem mergeUnique_nil_right (a : List Int) (h : a.Chain' (· ≠ ·)) :
    mergeUnique a [] = a := by
  unfold mergeUnique
  rw [mergeLoop]
  · simpa [drain] using foldl_emit_of_chain a [] (by simpa using h)
  · intro x xs y ys _ hb
    cases hb

/-! ## The merge primitive: contract -/

/-- C1: for strictly ascending sequences `A` and `B`, `mergeUnique A B` is strictly
ascending, and an integer occurs in it if and only if it occurs in `A` or in `B`. -/
theorem mergeUnique_strict_union (A B : List Int) (hA : A.Sorted (· < ·))
    (hB : B.Sorted (· < ·)) :
    (mergeUnique A B).Sorted (· < ·) ∧ ∀ x, x ∈ mergeUnique A B ↔ x ∈ A ∨ x ∈ B := by
  refine ⟨?_, fun x => ?_⟩
  · exact sorted_drain_mergeLoop A B [] (hA.imp le_of_lt) (hB.imp le_of_lt)
      List.sorted_nil (by simp) (by simp)
  · unfold mergeUnique
    rw [mem_drain_mergeLoop]
    simp

theorem mergeUnique_strict_union_witness :
    ([1, 3, 5] : List Int).Sorted (· < ·) ∧ ([2, 3, 4] : List Int).Sorted (· < ·) ∧
      ((mergeUnique [1, 3, 5] [2, 3, 4]).Sorted (· < ·) ∧
        ∀ x, x ∈ mergeUnique [1, 3, 5] [2, 3, 4] ↔ x ∈ [1, 3, 5] ∨ x ∈ [2, 3, 4]) :=
  ⟨by decide, by decide, mergeUnique_strict_union [1, 3, 5] [2, 3, 4] (by decide) (by decide)⟩

/-- C7: the identity law, `mergeUnique A [] = A` as a sequence, for every strictly
ascending sequence `A`. -/
theorem mergeUnique_identity (A : List Int) (hA : A.Sorted (· < ·)) :
    mergeUnique A [] = A :=
  mergeUnique_nil_right A ((List.Pairwise.chain' hA).imp fun {_ _} h => ne_of_lt h)

theorem mergeUnique_identity_witness :
    ([1, 2, 5] : List Int).Sorted (· < ·) ∧ mergeUnique [1, 2, 5] [] = [1, 2, 5] :=
  ⟨by decide, mergeUnique_identity [1, 2, 5] (by decide)⟩

/-- C8: commutativity in content: `mergeUnique A B` and `mergeUnique B A` have the same
elements. It holds for all sequences, the ascending duplicate-free ones among them. -/
theorem mergeUnique_comm_content (A B : List Int) :
    ∀ x, x ∈ mergeUnique A B ↔ x ∈ mergeUnique B A := by
  intro x
  unfold mergeUnique
  rw [mem_drain_mergeLoop, mem_drain_mergeLoop]
  simp only [List.not_mem_nil, false_or]
  exact Or.comm

/-- C9: adjacent-duplicate suppression: for all sequences `a` and `b`, sorted or not,
no two consecutive positions of `mergeUnique a b` hold equal values. -/
theorem mergeUnique_no_adjacent_equal (a b : List Int) :
    (mergeUnique a b).Chain' (· ≠ ·) :=
  chain_drain_mergeLoop a b [] List.chain'_nil

/-! ## putNumbers, first arrival -/

theorem uniqueLoop_spec (l : List Int) (prev : Int) (h : (prev :: l).Sorted (· ≤ ·)) :
    (prev :: uniqueLoop prev l).Sorted (· < ·) ∧
      ∀ x, x ∈ prev :: uniqueLoop prev l ↔ x ∈ prev :: l := by
  induction l generalizing prev with
  | nil => simp [uniqueLoop]
  | cons y ys ih =>
    have h' := List.sorted_cons.1 h
    have hy := ih y h'.2
    have hle : prev ≤ y := h'.1 y (by simp)
    by_cases hne : prev = y
    · subst hne
      simp only [uniqueLoop, ne_eq, not_true_eq_false, if_false]
      refine ⟨hy.1, fun x => ?_⟩
      rw [hy.2]
      simp
    · simp only [uniqueLoop, ne_eq, hne, not_false_eq_true, if_true]
      refine ⟨List.sorted_cons.2 ⟨?_, hy.1⟩, fun x => ?_⟩
      · intro z hz
        have hz' := (hy.2 z).1 hz
        have hyz : y ≤ z := by
          rcases List.mem_cons.1 hz' with h1 | h1
          · exact le_of_eq h1.symm
          · exact (List.sorted_cons.1 h'.2).1 z h1
        omega
      · rw [List.mem_cons, hy.2]
        simp

/-- C5, evaluated at the failing input: a request with one source whose decoded list is
empty. Slot zero is `FREE`, and `putNumbers` indexes `numbers[0]`: the call panics. -/
theorem putNumbers_empty_first_arrival :
    putNumbers (Sys.init 1).container (sortInts []) = none := by
  decide

/-- C6: first arrival. When slot zero is `FREE` and `numbers` is non-empty and sorted in
non-decreasing order, `putNumbers` returns, stores in slot zero the strictly ascending
sequence with the elements of `numbers`, sets slot zero `READY`, sends once on `count`,
starts no merge, and leaves every other slot as it was. -/
theorem putNumbers_first_arrival (container : Container) (s0 : StateNums)
    (numbers : List Int) (h0 : container[0]? = some s0) (hfree : s0.state = FREE)
    (hne : numbers ≠ []) (hs : numbers.Sorted (· ≤ ·)) :
    ∃ r stored, putNumbers container numbers = some r ∧
      r.container[0]? = some ⟨READY, stored⟩ ∧
      stored.Sorted (· < ·) ∧ (∀ x, x ∈ stored ↔ x ∈ numbers) ∧
      r.sent = 1 ∧ r.launched = none ∧
      r.container.length = container.length ∧
      ∀ i, i ≠ 0 → r.container[i]? = container[i]? := by
  cases container with
  | nil => simp at h0
  | cons c0 rest =>
    simp only [List.getElem?_cons_zero, Option.some.injEq] at h0
    subst h0
    cases numbers with
    | nil => exact absurd rfl hne
    | cons x xs =>
      have hu := uniqueLoop_spec xs x hs
      refine ⟨⟨⟨READY, x :: uniqueLoop x xs⟩ :: rest, 1, none⟩, x :: uniqueLoop x xs,
        ?_, by simp, hu.1, hu.2, rfl, rfl, rfl, ?_⟩
      · simp [putNumbers, hfree]
      · intro i hi
        cases i with
        | zero => exact absurd rfl hi
        | succ k => simp

theorem putNumbers_first_arrival_witness :
    ([⟨FREE, []⟩, ⟨FREE, []⟩] : Container)[0]? = some ⟨FREE, []⟩ ∧
      putNumbers [⟨FREE, []⟩, ⟨FREE, []⟩] [1, 2, 2, 3] =
        some ⟨[⟨READY, [1, 2, 3]⟩, ⟨FREE, []⟩], 1, none⟩ ∧
      ∃ r stored, putNumbers [⟨FREE, []⟩, ⟨FREE, []⟩] [1, 2, 2, 3] = some r ∧
        r.container[0]? = some ⟨READY, stored⟩ ∧
        stored.Sorted (· < ·) ∧ (∀ x, x ∈ stored ↔ x ∈ [1, 2, 2, 3]) ∧
        r.sent = 1 ∧ r.launched = none ∧
        r.container.length = ([⟨FREE, []⟩, ⟨FREE, []⟩] : Container).length ∧
        ∀ i, i ≠ 0 → r.container[i]? = ([⟨FREE, []⟩, ⟨FREE, []⟩] : Container)[i]? :=
  ⟨by decide, by decide,
    putNumbers_first_arrival [⟨FREE, []⟩, ⟨FREE, []⟩] ⟨FREE, []⟩ [1, 2, 2, 3]
      (by decide) rfl (by decide) (by decide)⟩

/-! ## What each table operation does, in terms of single-slot writes -/

theorem setState_eq_some {tb tb' : Container} {i : Nat} {st : SlotState}
    (h : setState tb i st = some tb') :
    ∃ s, tb[i]? = some s ∧ tb' = tb.set i { s with state := st } := by
  unfold setState at h
  split at h
  · rename_i s hs
    exact ⟨s, hs, (Option.some.inj h).symm⟩
  · cases h

theorem firstIndex_eq_some {st : SlotState} {l : List StateNums} {i k : Nat}
    (h : firstIndex st l i = some k) :
    ∃ j s, k = i + j ∧ l[j]? = some s ∧ s.state = st ∧
      ∀ (j' : Nat) (s' : StateNums), j' < j → l[j']? = some s' → s'.state ≠ st := by
  induction l generalizing i with
  | nil => simp [firstIndex] at h
  | cons a rest ih =>
    unfold firstIndex at h
    split at h
    · rename_i ha
      refine ⟨0, a, ?_, by simp, ha, ?_⟩
      · simpa using (Option.some.inj h).symm
      · intro j' s' hj
        omega
    · rename_i ha
      obtain ⟨j, s, hk, hj, hs, hmin⟩ := ih h
      refine ⟨j + 1, s, by omega, by simpa using hj, hs, ?_⟩
      intro j' s' hlt hj'
      cases j' with
      | zero =>
        simp only [List.getElem?_cons_zero, Option.some.injEq] at hj'
        subst hj'
        exact ha
      | succ n =>
        simp only [List.getElem?_cons_succ] at hj'
        exact hmin n s' (by omega) hj'

theorem firstIndex_eq_none {st : SlotState} {l : List StateNums} {i : Nat}
    (h : firstIndex st l i = none) : ∀ (j : Nat) (s : StateNums), l[j]? = some s → s.state ≠ st := by
  induction l generalizing i with
  | nil => simp
  | cons a rest ih =>
    unfold firstIndex at h
    split at h
    · cases h
    · rename_i ha
      intro j s hj
      cases j with
      | zero =>
        simp only [List.getElem?_cons_zero, Option.some.injEq] at hj
        subst hj
        exact ha
      | succ n =>
        simp only [List.getElem?_cons_succ] at hj
        exact ih h n s hj

/-- The four ways `putNumbers` returns: first arrival, a partner found, parked in a
free slot, or both scans run to the end. -/
theorem putNumbers_cases {tb : Container} {numbers : List Int} {r : Outcome}
    (h : putNumbers tb numbers = some r) :
    (∃ s0 x xs, tb[0]? = some s0 ∧ s0.state = FREE ∧ numbers = x :: xs ∧
        r = ⟨tb.set 0 ⟨READY, x :: uniqueLoop x xs⟩, 1, none⟩) ∨
    (∃ s0 i si, tb[0]? = some s0 ∧ s0.state ≠ FREE ∧ tb[i]? = some si ∧ si.state = READY ∧
        (∀ (j : Nat) (sj : StateNums), j < i → tb[j]? = some sj → sj.state ≠ READY) ∧
        r = ⟨tb.set i { si with state := MERGING }, 0,
          some (Launched.mergeIndexAndNumbers i numbers)⟩) ∨
    (∃ s0 i si, tb[0]? = some s0 ∧ s0.state ≠ FREE ∧
        (∀ (j : Nat) (sj : StateNums), tb[j]? = some sj → sj.state ≠ READY) ∧
        tb[i]? = some si ∧ si.state = FREE ∧
        (∀ (j : Nat) (sj : StateNums), j < i → tb[j]? = some sj → sj.state ≠ FREE) ∧
        r = ⟨tb.set i ⟨READY, numbers⟩, 0, none⟩) ∨
    (∃ s0, tb[0]? = some s0 ∧ s0.state ≠ FREE ∧
        (∀ (j : Nat) (sj : StateNums), tb[j]? = some sj → sj.state ≠ READY ∧ sj.state ≠ FREE) ∧
        r = ⟨tb, 0, none⟩) := by
  cases tb with
  | nil => simp [putNumbers] at h
  | cons c0 rest =>
    unfold putNumbers at h
    simp only at h
    split at h
    · rename_i hfree
      left
      cases numbers with
      | nil => simp at h
      | cons x xs =>
        simp only [Option.some.injEq] at h
        exact ⟨c0, x, xs, by simp, hfree, rfl, by simp [← h]⟩
    · rename_i hfree
      right
      cases hi : firstIndex READY (c0 :: rest) 0 with
      | some i =>
        left
        simp only [hi] at h
        obtain ⟨j, si, hk, hj, hs, hmin⟩ := firstIndex_eq_some hi
        simp only [Nat.zero_add] at hk
        subst hk
        cases hst : setState (c0 :: rest) i MERGING with
        | none => simp [hst] at h
        | some c' =>
          obtain ⟨s', hs', hc'⟩ := setState_eq_some hst
          rw [hj] at hs'
          cases hs'
          simp only [hst, Option.map_some', Option.some.injEq] at h
          exact ⟨c0, i, si, by simp, hfree, hj, hs, hmin, by rw [← h, hc']⟩
      | none =>
        right
        simp only [hi] at h
        have hno := firstIndex_eq_none hi
        cases hi' : firstIndex FREE (c0 :: rest) 0 with
        | some i =>
          left
          simp only [hi'] at h
          obtain ⟨j, si, hk, hj, hs, hmin⟩ := firstIndex_eq_some hi'
          simp only [Nat.zero_add] at hk
          subst hk
          simp only [Option.some.injEq] at h
          exact ⟨c0, i, si, by simp, hfree, hno, hj, hs, hmin, h.symm⟩
        | none =>
          right
          simp only [hi'] at h
          have hno' := firstIndex_eq_none hi'
          simp only [Option.some.injEq] at h
          exact ⟨c0, by simp, hfree, fun j sj hj => ⟨hno j sj hj, hno' j sj hj⟩, h.symm⟩

theorem mergeIndexAndNumbers_eq_some {tb : Container} {indexA : Nat} {numsB : List Int}
    {r : Outcome} (h : mergeIndexAndNumbers tb indexA numsB = some r) :
    ∃ sA, tb[indexA]? = some sA ∧
      r = ⟨tb.set indexA ⟨READY, mergeUnique sA.Numbers numsB⟩, 1, none⟩ := by
  unfold mergeIndexAndNumbers at h
  split at h
  · rename_i sA hA
    exact ⟨sA, hA, (Option.some.inj h).symm⟩
  · cases h

theorem mergeTwoIndexes_eq_some {tb : Container} {indexA indexB : Nat} {r : Outcome}
    (h : mergeTwoIndexes tb indexA indexB = some r) (hne : indexA ≠ indexB) :
    ∃ sA sB, tb[indexA]? = some sA ∧ tb[indexB]? = some sB ∧
      r = ⟨(tb.set indexA ⟨READY, mergeUnique sA.Numbers sB.Numbers⟩).set indexB
        ⟨FREE, sB.Numbers⟩, 1, none⟩ := by
  unfold mergeTwoIndexes at h
  split at h
  · rename_i sA sB hA hB
    cases hst : setState (tb.set indexA ⟨READY, mergeUnique sA.Numbers sB.Numbers⟩)
        indexB FREE with
    | none => simp [hst] at h
    | some tb' =>
      obtain ⟨s', hs', hc'⟩ := setState_eq_some hst
      rw [List.getElem?_set_ne hne, hB] at hs'
      cases hs'
      simp only [hst, Option.map_some', Option.some.injEq] at h
      exact ⟨sA, sB, hA, hB, by rw [← h, hc']⟩
  · cases h

theorem findPairsLoop_true (l : List StateNums) (i a : Nat) :
    findPairsLoop l i true a = (firstIndex READY l i).map fun k => (a, k) := by
  induction l generalizing i with
  | nil => simp [findPairsLoop, firstIndex]
  | cons s rest ih =>
    by_cases hs : s.state = READY
    · simp [findPairsLoop, firstIndex, hs]
    · simp [findPairsLoop, firstIndex, hs, ih]

theorem findPairsLoop_false_some {l : List StateNums} {i a : Nat} {p : Nat × Nat}
    (h : findPairsLoop l i false a = some p) :
    ∃ ja jk sa sk, p = (i + ja, i + jk) ∧ ja < jk ∧ l[ja]? = some sa ∧ l[jk]? = some sk ∧
      sa.state = READY ∧ sk.state = READY ∧
      ∀ (j : Nat) (sj : StateNums), j < jk → j ≠ ja → l[j]? = some sj → sj.state ≠ READY := by
  induction l generalizing i a with
  | nil => simp [findPairsLoop] at h
  | cons s rest ih =>
    by_cases hs : s.state = READY
    · simp only [findPairsLoop, hs, and_self, if_true, findPairsLoop_true] at h
      cases hk : firstIndex READY rest (i + 1) with
      | none => simp [hk] at h
      | some k =>
        simp only [hk, Option.map_some', Option.some.injEq] at h
        obtain ⟨j, sk, hkj, hj, hsk, hmin⟩ := firstIndex_eq_some hk
        refine ⟨0, j + 1, s, sk, ?_, by omega, by simp, by simpa using hj, hs, hsk, ?_⟩
        · rw [← h, hkj]
          simp only [Nat.add_zero, Prod.mk.injEq, true_and]
          omega
        · intro j' sj hlt hne hj'
          cases j' with
          | zero => exact absurd rfl hne
          | succ n =>
            simp only [List.getElem?_cons_succ] at hj'
            exact hmin n sj (by omega) hj'
    · simp only [findPairsLoop, hs, false_and, if_false] at h
      obtain ⟨ja, jk, sa, sk, hp, hlt, hja, hjk, hsa, hsk, hmin⟩ := ih h
      refine ⟨ja + 1, jk + 1, sa, sk, ?_, by omega, by simpa using hja, by simpa using hjk,
        hsa, hsk, ?_⟩
      · rw [hp]
        simp only [Prod.mk.injEq]
        omega
      · intro j' sj hlt' hne hj'
        cases j' with
        | zero =>
          simp only [List.getElem?_cons_zero, Option.some.injEq] at hj'
          subst hj'
          exact hs
        | succ n =>
          simp only [List.getElem?_cons_succ] at hj'
          exact hmin n sj (by omega) (by omega) hj'

theorem findPairsLoop_false_none {l : List StateNums} {i a : Nat}
    (h : findPairsLoop l i false a = none) :
    ∀ (j1 j2 : Nat) (s1 s2 : StateNums), l[j1]? = some s1 → l[j2]? = some s2 →
      s1.state = READY → s2.state = READY → j1 = j2 := by
  induction l generalizing i a with
  | nil => simp
  | cons s rest ih =>
    by_cases hs : s.state = READY
    · simp only [findPairsLoop, hs, and_self, if_true, findPairsLoop_true,
        Option.map_eq_none'] at h
      have hno := firstIndex_eq_none h
      intro j1 j2 s1 s2 h1 h2 hr1 hr2
      cases j1 with
      | zero =>
        cases j2 with
        | zero => rfl
        | succ n =>
          simp only [List.getElem?_cons_succ] at h2
          exact absurd hr2 (hno n s2 h2)
      | succ m =>
        simp only [List.getElem?_cons_succ] at h1
        exact absurd hr1 (hno m s1 h1)
    · simp only [findPairsLoop, hs, false_and, if_false] at h
      intro j1 j2 s1 s2 h1 h2 hr1 hr2
      cases j1 with
      | zero =>
        simp only [List.getElem?_cons_zero, Option.some.injEq] at h1
        subst h1
        exact absurd hr1 hs
      | succ m =>
        cases j2 with
        | zero =>
          simp only [List.getElem?_cons_zero, Option.some.injEq] at h2
          subst h2
          exact absurd hr2 hs
        | succ n =>
          simp only [List.getElem?_cons_succ] at h1 h2
          rw [ih h m n s1 s2 h1 h2 hr1 hr2]

/-- The two ways `findPairs` returns: no two slots are `READY` and nothing changes, or the
two lowest `READY` slots are marked and a merge of them is started. -/
theorem findPairs_cases {tb : Container} {r : Outcome} (h : findPairs tb = some r) :
    ((∀ (j1 j2 : Nat) (s1 s2 : StateNums), tb[j1]? = some s1 → tb[j2]? = some s2 →
        s1.state = READY → s2.state = READY → j1 = j2) ∧ r = ⟨tb, 0, none⟩) ∨
    (∃ a i sa si, a < i ∧ tb[a]? = some sa ∧ tb[i]? = some si ∧
        sa.state = READY ∧ si.state = READY ∧
        (∀ (j : Nat) (sj : StateNums), j < i → j ≠ a → tb[j]? = some sj →
          sj.state ≠ READY) ∧
        r = ⟨(tb.set a { sa with state := MERGING }).set i { si with state := MERGING }, 0,
          some (Launched.mergeTwoIndexes a i)⟩) := by
  unfold findPairs at h
  cases hl : findPairsLoop tb 0 false 0 with
  | none =>
    left
    simp only [hl, Option.some.injEq] at h
    exact ⟨findPairsLoop_false_none hl, h.symm⟩
  | some p =>
    right
    obtain ⟨ja, jk, sa, sk, hp, hlt, hja, hjk, hsa, hsk, hmin⟩ := findPairsLoop_false_some hl
    simp only [Nat.zero_add] at hp
    subst hp
    simp only [hl] at h
    cases h1 : setState tb ja MERGING with
    | none => simp [h1] at h
    | some c1 =>
      obtain ⟨s1, hs1, hc1⟩ := setState_eq_some h1
      rw [hja] at hs1
      cases hs1
      simp only [h1, Option.some_bind] at h
      cases h2 : setState c1 jk MERGING with
      | none => simp [h2] at h
      | some c2 =>
        obtain ⟨s2, hs2, hc2⟩ := setState_eq_some h2
        rw [hc1, List.getElem?_set_ne (by omega), hjk] at hs2
        cases hs2
        simp only [h2, Option.map_some', Option.some.injEq] at h
        exact ⟨ja, jk, sa, sk, hlt, hja, hjk, hsa, hsk, hmin, by rw [← h, hc2, hc1]⟩

/-! ## Every step, written out -/

theorem sorted_sortInts (l : List Int) : (sortInts l).Sorted (· ≤ ·) :=
  List.sorted_insertionSort (· ≤ ·) l

theorem Step.toMove {n : Nat} {s t : Sys} (hI : Inv n s) (hst : Step n s t) : Move n s t := by
  cases hst with
  | fail h => exact Move.fail s h
  | arrive decoded r h hr =>
    have hsort := sorted_sortInts decoded
    rcases putNumbers_cases hr with ⟨s0, x, xs, h0, hf, hnum, rfl⟩ |
      ⟨s0, i, si, h0, hf, hi, hready, hmin, rfl⟩ |
      ⟨s0, i, si, h0, hf, hnone, hi, hifree, hmin, rfl⟩ | ⟨s0, h0, hf, hall, rfl⟩
    · rw [hnum] at hsort ⊢
      exact Move.first s s0 x xs h hsort h0 hf
    · exact Move.partner s _ s0 i si h hsort h0 hf hi hready hmin
    · exact Move.park s _ s0 i si h hsort h0 hf hnone hi hifree hmin
    · exact Move.drop s _ s0 h hsort h0 hf hall
  | completeIndexAndNumbers i B r hm hr =>
    obtain ⟨sA, hA, rfl⟩ := mergeIndexAndNumbers_eq_some hr
    exact Move.doneIndexAndNumbers s i B sA hm hA
  | completeTwoIndexes i j r hm hr =>
    have hlt := hI.ordered i j hm
    obtain ⟨sA, sB, hA, hB, rfl⟩ := mergeTwoIndexes_eq_some hr (by omega)
    exact Move.doneTwoIndexes s i j sA sB hm hlt hA hB
  | findPairs r hp hr =>
    rcases findPairs_cases hr with ⟨hone, rfl⟩ | ⟨a, i, sa, si, hlt, ha, hi, hra, hri, hmin, rfl⟩
    · exact Move.noPair s hp hone
    · exact Move.pair s a i sa si hp hlt ha hi hra hri hmin

/-! ## Single-slot writes -/

theorem getElem?_set_cases {α : Type} {l : List α} {i k : Nat} {a x : α}
    (h : (l.set i a)[k]? = some x) : (k = i ∧ x = a) ∨ (k ≠ i ∧ l[k]? = some x) := by
  by_cases hk : i = k
  · subst hk
    rw [List.getElem?_set] at h
    simp only [if_true] at h
    split at h
    · exact Or.inl ⟨rfl, (Option.some.inj h).symm⟩
    · cases h
  · rw [List.getElem?_set_ne hk] at h
    exact Or.inr ⟨fun e => hk e.symm, h⟩

theorem getElem?_set_of_some {α : Type} {l : List α} {i : Nat} {a old : α}
    (h : l[i]? = some old) : (l.set i a)[i]? = some a := by
  have hlt : i < l.length := by
    rcases List.getElem?_eq_some.1 h with ⟨hlt, _⟩
    exact hlt
  exact List.getElem?_set_self hlt

theorem countP_set_add {α : Type} (p : α → Bool) {l : List α} {i : Nat} {old : α} (a : α)
    (h : l[i]? = some old) :
    (l.set i a).countP p + (if p old then 1 else 0) =
      l.countP p + (if p a then 1 else 0) := by
  induction l generalizing i with
  | nil => simp at h
  | cons y ys ih =>
    cases i with
    | zero =>
      simp only [List.getElem?_cons_zero, Option.some.injEq] at h
      subst h
      simp only [List.set_cons_zero, List.countP_cons]
      omega
    | succ k =>
      simp only [List.getElem?_cons_succ] at h
      have := ih h
      simp only [List.set_cons_succ, List.countP_cons]
      omega

theorem nonFree_set {tb : Container} {i : Nat} {old : StateNums} (a : StateNums)
    (h : tb[i]? = some old) :
    nonFree (tb.set i a) + (if old.state ≠ FREE then 1 else 0) =
      nonFree tb + (if a.state ≠ FREE then 1 else 0) := by
  have := countP_set_add (fun slot : StateNums => decide (slot.state ≠ FREE)) a h
  simpa [nonFree] using this

theorem nonFree_pos {tb : Container} {i : Nat} {slot : StateNums} (h : tb[i]? = some slot)
    (hs : slot.state ≠ FREE) : 0 < nonFree tb := by
  unfold nonFree
  rw [List.countP_pos_iff]
  exact ⟨slot, List.getElem?_mem h, by simpa using hs⟩

theorem nonFree_eq_zero {tb : Container}
    (h : ∀ (i : Nat) (slot : StateNums), tb[i]? = some slot → slot.state = FREE) :
    nonFree tb = 0 := by
  unfold nonFree
  rw [List.countP_eq_zero]
  intro slot hslot
  obtain ⟨i, hi⟩ := List.mem_iff_getElem?.1 hslot
  simpa using h i slot hi

theorem nonFree_eq_length {tb : Container}
    (h : ∀ (i : Nat) (slot : StateNums), tb[i]? = some slot → slot.state ≠ FREE) :
    nonFree tb = tb.length := by
  unfold nonFree
  rw [List.countP_eq_length]
  intro slot hslot
  obtain ⟨i, hi⟩ := List.mem_iff_getElem?.1 hslot
  simpa using h i slot hi

theorem countP_erase_add {α : Type} [DecidableEq α] (p : α → Bool) {l : List α} {m : α}
    (h : m ∈ l) : (l.erase m).countP p + (if p m then 1 else 0) = l.countP p := by
  induction l with
  | nil => simp at h
  | cons y ys ih =>
    by_cases hy : y = m
    · subst hy
      simp only [List.erase_cons_head, List.countP_cons]
    · have hm : m ∈ ys := by
        rcases List.mem_cons.1 h with h1 | h1
        · exact absurd h1.symm hy
        · exact h1
      have := ih hm
      rw [List.erase_cons_tail (by simpa using hy)]
      simp only [List.countP_cons]
      omega

/-! ## The invariant is kept by every step -/

theorem mergeUnique_sorted (a b : List Int) (ha : a.Sorted (· ≤ ·)) (hb : b.Sorted (· ≤ ·)) :
    (mergeUnique a b).Sorted (· < ·) :=
  sorted_drain_mergeLoop a b [] ha hb List.sorted_nil (by simp) (by simp)

theorem mem_mergeUnique (a b : List Int) (x : Int) :
    x ∈ mergeUnique a b ↔ x ∈ a ∨ x ∈ b := by
  unfold mergeUnique
  rw [mem_drain_mergeLoop]
  simp

theorem Move.len {n : Nat} {s t : Sys} (hI : Inv n s) (hm : Move n s t) :
    t.container.length = if n = 0 then 1 else n := by
  cases hm <;> simp [hI.len]

theorem Move.sortedSlots {n : Nat} {s t : Sys} (hI : Inv n s) (hm : Move n s t) :
    ∀ (k : Nat) (slot : StateNums), t.container[k]? = some slot →
      slot.Numbers.Sorted (· ≤ ·) := by
  intro k slot hk
  cases hm with
  | fail h => exact hI.sortedSlots k slot hk
  | first s0 x xs h hsort h0 hfree =>
    rcases getElem?_set_cases hk with ⟨_, rfl⟩ | ⟨_, hk'⟩
    · exact (uniqueLoop_spec xs x hsort).1.imp le_of_lt
    · exact hI.sortedSlots k slot hk'
  | partner numbers s0 i si h hsort h0 hfree hi hready hmin =>
    rcases getElem?_set_cases hk with ⟨_, rfl⟩ | ⟨_, hk'⟩
    · exact hI.sortedSlots i si hi
    · exact hI.sortedSlots k slot hk'
  | park numbers s0 i si h hsort h0 hfree hnone hi hifree hmin =>
    rcases getElem?_set_cases hk with ⟨_, rfl⟩ | ⟨_, hk'⟩
    · exact hsort
    · exact hI.sortedSlots k slot hk'
  | drop numbers s0 h hsort h0 hfree hall => exact hI.sortedSlots k slot hk
  | doneIndexAndNumbers i B sA hmem hA =>
    rcases getElem?_set_cases hk with ⟨_, rfl⟩ | ⟨_, hk'⟩
    · exact (mergeUnique_sorted _ _ (hI.sortedSlots i sA hA)
        (hI.sortedMerges i B hmem)).imp le_of_lt
    · exact hI.sortedSlots k slot hk'
  | doneTwoIndexes i j sA sB hmem hlt hA hB =>
    rcases getElem?_set_cases hk with ⟨_, rfl⟩ | ⟨_, hk'⟩
    · exact hI.sortedSlots j sB hB
    · rcases getElem?_set_cases hk' with ⟨_, rfl⟩ | ⟨_, hk''⟩
      · exact (mergeUnique_sorted _ _ (hI.sortedSlots i sA hA)
          (hI.sortedSlots j sB hB)).imp le_of_lt
      · exact hI.sortedSlots k slot hk''
  | noPair hp hone => exact hI.sortedSlots k slot hk
  | pair a i sa si hp hlt ha hi hra hri hmin =>
    rcases getElem?_set_cases hk with ⟨_, rfl⟩ | ⟨_, hk'⟩
    · exact hI.sortedSlots i si hi
    · rcases getElem?_set_cases hk' with ⟨_, rfl⟩ | ⟨_, hk''⟩
      · exact hI.sortedSlots a sa ha
      · exact hI.sortedSlots k slot hk''

theorem Move.sortedZero {n : Nat} {s t : Sys} (hI : Inv n s) (hm : Move n s t) :
    ∀ slot : StateNums, t.container[0]? = some slot → slot.Numbers.Sorted (· < ·) := by
  intro slot hk
  cases hm with
  | fail h => exact hI.sortedZero slot hk
  | first s0 x xs h hsort h0 hfree =>
    rcases getElem?_set_cases hk with ⟨_, rfl⟩ | ⟨hne, _⟩
    · exact (uniqueLoop_spec xs x hsort).1
    · exact absurd rfl hne
  | partner numbers s0 i si h hsort h0 hfree hi hready hmin =>
    rcases getElem?_set_cases hk with ⟨hz, rfl⟩ | ⟨_, hk'⟩
    · subst hz
      exact hI.sortedZero si hi
    · exact hI.sortedZero slot hk'
  | park numbers s0 i si h hsort h0 hfree hnone hi hifree hmin =>
    rcases getElem?_set_cases hk with ⟨hz, rfl⟩ | ⟨_, hk'⟩
    · subst hz
      rw [h0] at hi
      cases hi
      exact absurd hifree hfree
    · exact hI.sortedZero slot hk'
  | drop numbers s0 h hsort h0 hfree hall => exact hI.sortedZero slot hk
  | doneIndexAndNumbers i B sA hmem hA =>
    rcases getElem?_set_cases hk with ⟨_, rfl⟩ | ⟨_, hk'⟩
    · exact mergeUnique_sorted _ _ (hI.sortedSlots i sA hA) (hI.sortedMerges i B hmem)
    · exact hI.sortedZero slot hk'
  | doneTwoIndexes i j sA sB hmem hlt hA hB =>
    rcases getElem?_set_cases hk with ⟨hz, rfl⟩ | ⟨_, hk'⟩
    · omega
    · rcases getElem?_set_cases hk' with ⟨_, rfl⟩ | ⟨_, hk''⟩
      · exact mergeUnique_sorted _ _ (hI.sortedSlots i sA hA) (hI.sortedSlots j sB hB)
      · exact hI.sortedZero slot hk''
  | noPair hp hone => exact hI.sortedZero slot hk
  | pair a i sa si hp hlt ha hi hra hri hmin =>
    rcases getElem?_set_cases hk with ⟨hz, rfl⟩ | ⟨_, hk'⟩
    · subst hz
      exact hI.sortedZero si hi
    · rcases getElem?_set_cases hk' with ⟨hz, rfl⟩ | ⟨_, hk''⟩
      · subst hz
        exact hI.sortedZero sa ha
      · exact hI.sortedZero slot hk''

theorem Move.sortedMerges {n : Nat} {s t : Sys} (hI : Inv n s) (hm : Move n s t) :
    ∀ (i : Nat) (B : List Int), Launched.mergeIndexAndNumbers i B ∈ t.merges →
      B.Sorted (· ≤ ·) := by
  intro k B hk
  cases hm with
  | fail h => exact hI.sortedMerges k B hk
  | first s0 x xs h hsort h0 hfree => exact hI.sortedMerges k B hk
  | partner numbers s0 i si h hsort h0 hfree hi hready hmin =>
    rcases List.mem_cons.1 hk with h1 | h1
    · cases h1
      exact hsort
    · exact hI.sortedMerges k B h1
  | park numbers s0 i si h hsort h0 hfree hnone hi hifree hmin => exact hI.sortedMerges k B hk
  | drop numbers s0 h hsort h0 hfree hall => exact hI.sortedMerges k B hk
  | doneIndexAndNumbers i B' sA hmem hA => exact hI.sortedMerges k B (List.mem_of_mem_erase hk)
  | doneTwoIndexes i j sA sB hmem hlt hA hB =>
    exact hI.sortedMerges k B (List.mem_of_mem_erase hk)
  | noPair hp hone => exact hI.sortedMerges k B hk
  | pair a i sa si hp hlt ha hi hra hri hmin =>
    rcases List.mem_cons.1 hk with h1 | h1
    · cases h1
    · exact hI.sortedMerges k B h1

theorem getElem?_set_other {tb : Container} {i k : Nat} {old cur : StateNums} (a : StateNums)
    (hi : tb[i]? = some old) (hk : tb[k]? = some cur) (hne : cur.state ≠ old.state) :
    (tb.set i a)[k]? = some cur := by
  have hik : i ≠ k := by
    intro e
    subst e
    rw [hi] at hk
    cases hk
    exact hne rfl
  rw [List.getElem?_set_ne hik, hk]

theorem Move.refsMerging {n : Nat} {s t : Sys} (hI : Inv n s) (hm : Move n s t) :
    ∀ m ∈ t.merges, ∀ k ∈ m.refs,
      ∃ slot : StateNums, t.container[k]? = some slot ∧ slot.state = MERGING := by
  intro m hmem k hk
  cases hm with
  | fail h => exact hI.refsMerging m hmem k hk
  | first s0 x xs h hsort h0 hfree =>
    obtain ⟨slot, hslot, hst⟩ := hI.refsMerging m hmem k hk
    exact ⟨slot, getElem?_set_other _ h0 hslot (by rw [hst, hfree]; decide), hst⟩
  | partner numbers s0 i si h hsort h0 hfree hi hready hmin =>
    rcases List.mem_cons.1 hmem with h1 | h1
    · subst h1
      simp only [Launched.refs, List.mem_singleton] at hk
      subst hk
      exact ⟨_, getElem?_set_of_some hi, rfl⟩
    · obtain ⟨slot, hslot, hst⟩ := hI.refsMerging m h1 k hk
      exact ⟨slot, getElem?_set_other _ hi hslot (by rw [hst, hready]; decide), hst⟩
  | park numbers s0 i si h hsort h0 hfree hnone hi hifree hmin =>
    obtain ⟨slot, hslot, hst⟩ := hI.refsMerging m hmem k hk
    exact ⟨slot, getElem?_set_other _ hi hslot (by rw [hst, hifree]; decide), hst⟩
  | drop numbers s0 h hsort h0 hfree hall => exact hI.refsMerging m hmem k hk
  | doneIndexAndNumbers i B sA hmem0 hA =>
    have hm' := (List.Nodup.mem_erase_iff hI.mergesNodup).1 hmem
    obtain ⟨slot, hslot, hst⟩ := hI.refsMerging m hm'.2 k hk
    have hki : i ≠ k := by
      intro e
      subst e
      exact hm'.1 (hI.exclusive m hm'.2 _ hmem0 i hk (by simp [Launched.refs]))
    exact ⟨slot, by rw [List.getElem?_set_ne hki, hslot], hst⟩
  | doneTwoIndexes i j sA sB hmem0 hlt hA hB =>
    have hm' := (List.Nodup.mem_erase_iff hI.mergesNodup).1 hmem
    obtain ⟨slot, hslot, hst⟩ := hI.refsMerging m hm'.2 k hk
    have hki : i ≠ k := by
      intro e
      subst e
      exact hm'.1 (hI.exclusive m hm'.2 _ hmem0 i hk (by simp [Launched.refs]))
    have hkj : j ≠ k := by
      intro e
      subst e
      exact hm'.1 (hI.exclusive m hm'.2 _ hmem0 j hk (by simp [Launched.refs]))
    exact ⟨slot, by rw [List.getElem?_set_ne hkj, List.getElem?_set_ne hki, hslot], hst⟩
  | noPair hp hone => exact hI.refsMerging m hmem k hk
  | pair a i sa si hp hlt ha hi hra hri hmin =>
    have hi' : (s.container.set a { sa with state := MERGING })[i]? = some si := by
      rw [List.getElem?_set_ne (by omega), hi]
    rcases List.mem_cons.1 hmem with h1 | h1
    · subst h1
      simp only [Launched.refs, List.mem_cons, List.mem_singleton, List.not_mem_nil,
        or_false] at hk
      rcases hk with rfl | rfl
      · exact ⟨_, by rw [List.getElem?_set_ne (by omega), getElem?_set_of_some ha], rfl⟩
      · exact ⟨_, getElem?_set_of_some hi', rfl⟩
    · obtain ⟨slot, hslot, hst⟩ := hI.refsMerging m h1 k hk
      have h2 := getElem?_set_other { sa with state := MERGING } ha hslot
        (by rw [hst, hra]; decide)
      exact ⟨slot, getElem?_set_other _ hi' h2 (by rw [hst, hri]; decide), hst⟩

theorem Inv.not_mem_of_ready {n : Nat} {s : Sys} (hI : Inv n s) {m : Launched} {k : Nat}
    {slot : StateNums} (hk : s.container[k]? = some slot) (hs : slot.state ≠ MERGING)
    (hr : k ∈ m.refs) : m ∉ s.merges := by
  intro hmem
  obtain ⟨slot', hslot', hst⟩ := hI.refsMerging m hmem k hr
  rw [hk] at hslot'
  cases hslot'
  exact hs hst

theorem Move.mergesNodup {n : Nat} {s t : Sys} (hI : Inv n s) (hm : Move n s t) :
    t.merges.Nodup := by
  cases hm with
  | fail h => exact hI.mergesNodup
  | first s0 x xs h hsort h0 hfree => exact hI.mergesNodup
  | partner numbers s0 i si h hsort h0 hfree hi hready hmin =>
    exact List.nodup_cons.2 ⟨hI.not_mem_of_ready hi (by rw [hready]; decide)
      (by simp [Launched.refs]), hI.mergesNodup⟩
  | park numbers s0 i si h hsort h0 hfree hnone hi hifree hmin => exact hI.mergesNodup
  | drop numbers s0 h hsort h0 hfree hall => exact hI.mergesNodup
  | doneIndexAndNumbers i B sA hmem0 hA => exact hI.mergesNodup.erase _
  | doneTwoIndexes i j sA sB hmem0 hlt hA hB => exact hI.mergesNodup.erase _
  | noPair hp hone => exact hI.mergesNodup
  | pair a i sa si hp hlt ha hi hra hri hmin =>
    exact List.nodup_cons.2 ⟨hI.not_mem_of_ready ha (by rw [hra]; decide)
      (by simp [Launched.refs]), hI.mergesNodup⟩

theorem Move.exclusive {n : Nat} {s t : Sys} (hI : Inv n s) (hm : Move n s t) :
    ∀ m1 ∈ t.merges, ∀ m2 ∈ t.merges, ∀ k : Nat, k ∈ m1.refs → k ∈ m2.refs → m1 = m2 := by
  intro m1 h1 m2 h2 k hk1 hk2
  cases hm with
  | fail h => exact hI.exclusive m1 h1 m2 h2 k hk1 hk2
  | first s0 x xs h hsort h0 hfree => exact hI.exclusive m1 h1 m2 h2 k hk1 hk2
  | partner numbers s0 i si h hsort h0 hfree hi hready hmin =>
    have hnew : ∀ m : Launched, i ∈ m.refs → m ∉ s.merges := fun m hr =>
      hI.not_mem_of_ready hi (by rw [hready]; decide) hr
    rcases List.mem_cons.1 h1 with e1 | e1 <;> rcases List.mem_cons.1 h2 with e2 | e2
    · rw [e1, e2]
    · subst e1
      simp only [Launched.refs, List.mem_singleton] at hk1
      subst hk1
      exact absurd e2 (hnew m2 hk2)
    · subst e2
      simp only [Launched.refs, List.mem_singleton] at hk2
      subst hk2
      exact absurd e1 (hnew m1 hk1)
    · exact hI.exclusive m1 e1 m2 e2 k hk1 hk2
  | park numbers s0 i si h hsort h0 hfree hnone hi hifree hmin =>
    exact hI.exclusive m1 h1 m2 h2 k hk1 hk2
  | drop numbers s0 h hsort h0 hfree hall => exact hI.exclusive m1 h1 m2 h2 k hk1 hk2
  | doneIndexAndNumbers i B sA hmem0 hA =>
    exact hI.exclusive m1 (List.mem_of_mem_erase h1) m2 (List.mem_of_mem_erase h2) k hk1 hk2
  | doneTwoIndexes i j sA sB hmem0 hlt hA hB =>
    exact hI.exclusive m1 (List.mem_of_mem_erase h1) m2 (List.mem_of_mem_erase h2) k hk1 hk2
  | noPair hp hone => exact hI.exclusive m1 h1 m2 h2 k hk1 hk2
  | pair a i sa si hp hlt ha hi hra hri hmin =>
    have hnew : ∀ m : Launched, k ∈ m.refs → (k = a ∨ k = i) → m ∉ s.merges := by
      intro m hr hk
      rcases hk with rfl | rfl
      · exact hI.not_mem_of_ready ha (by rw [hra]; decide) hr
      · exact hI.not_mem_of_ready hi (by rw [hri]; decide) hr
    rcases List.mem_cons.1 h1 with e1 | e1 <;> rcases List.mem_cons.1 h2 with e2 | e2
    · rw [e1, e2]
    · subst e1
      exact absurd e2 (hnew m2 hk2 (by simpa [Launched.refs] using hk1))
    · subst e2
      exact absurd e1 (hnew m1 hk1 (by simpa [Launched.refs] using hk2))
    · exact hI.exclusive m1 e1 m2 e2 k hk1 hk2

theorem Move.mergingRef {n : Nat} {s t : Sys} (hI : Inv n s) (hm : Move n s t) :
    ∀ (k : Nat) (slot : StateNums), t.container[k]? = some slot → slot.state = MERGING →
      ∃ m ∈ t.merges, k ∈ m.refs := by
  intro k slot hk hst
  cases hm with
  | fail h => exact hI.mergingRef k slot hk hst
  | first s0 x xs h hsort h0 hfree =>
    rcases getElem?_set_cases hk with ⟨_, rfl⟩ | ⟨_, hk'⟩
    · cases hst
    · exact hI.mergingRef k slot hk' hst
  | partner numbers s0 i si h hsort h0 hfree hi hready hmin =>
    rcases getElem?_set_cases hk with ⟨rfl, _⟩ | ⟨_, hk'⟩
    · exact ⟨_, List.mem_cons_self _ _, by simp [Launched.refs]⟩
    · obtain ⟨m, hmem, hr⟩ := hI.mergingRef k slot hk' hst
      exact ⟨m, List.mem_cons_of_mem _ hmem, hr⟩
  | park numbers s0 i si h hsort h0 hfree hnone hi hifree hmin =>
    rcases getElem?_set_cases hk with ⟨_, rfl⟩ | ⟨_, hk'⟩
    · cases hst
    · exact hI.mergingRef k slot hk' hst
  | drop numbers s0 h hsort h0 hfree hall => exact hI.mergingRef k slot hk hst
  | doneIndexAndNumbers i B sA hmem0 hA =>
    rcases getElem?_set_cases hk with ⟨_, rfl⟩ | ⟨hne, hk'⟩
    · cases hst
    · obtain ⟨m, hmem, hr⟩ := hI.mergingRef k slot hk' hst
      refine ⟨m, (List.Nodup.mem_erase_iff hI.mergesNodup).2 ⟨?_, hmem⟩, hr⟩
      intro e
      subst e
      simp only [Launched.refs, List.mem_singleton] at hr
      exact hne hr
  | doneTwoIndexes i j sA sB hmem0 hlt hA hB =>
    rcases getElem?_set_cases hk with ⟨_, rfl⟩ | ⟨hnej, hk'⟩
    · cases hst
    · rcases getElem?_set_cases hk' with ⟨_, rfl⟩ | ⟨hnei, hk''⟩
      · cases hst
      · obtain ⟨m, hmem, hr⟩ := hI.mergingRef k slot hk'' hst
        refine ⟨m, (List.Nodup.mem_erase_iff hI.mergesNodup).2 ⟨?_, hmem⟩, hr⟩
        intro e
        subst e
        simp only [Launched.refs, List.mem_cons, List.mem_singleton, List.not_mem_nil,
          or_false] at hr
        rcases hr with hr | hr
        · exact hnei hr
        · exact hnej hr
  | noPair hp hone => exact hI.mergingRef k slot hk hst
  | pair a i sa si hp hlt ha hi hra hri hmin =>
    rcases getElem?_set_cases hk with ⟨rfl, _⟩ | ⟨_, hk'⟩
    · exact ⟨_, List.mem_cons_self _ _, by simp [Launched.refs]⟩
    · rcases getElem?_set_cases hk' with ⟨rfl, _⟩ | ⟨_, hk''⟩
      · exact ⟨_, List.mem_cons_self _ _, by simp [Launched.refs]⟩
      · obtain ⟨m, hmem, hr⟩ := hI.mergingRef k slot hk'' hst
        exact ⟨m, List.mem_cons_of_mem _ hmem, hr⟩

theorem Move.ordered {n : Nat} {s t : Sys} (hI : Inv n s) (hm : Move n s t) :
    ∀ i j : Nat, Launched.mergeTwoIndexes i j ∈ t.merges → i < j := by
  intro i' j' hmem
  cases hm with
  | fail h => exact hI.ordered i' j' hmem
  | first s0 x xs h hsort h0 hfree => exact hI.ordered i' j' hmem
  | partner numbers s0 i si h hsort h0 hfree hi hready hmin =>
    rcases List.mem_cons.1 hmem with e | e
    · cases e
    · exact hI.ordered i' j' e
  | park numbers s0 i si h hsort h0 hfree hnone hi hifree hmin => exact hI.ordered i' j' hmem
  | drop numbers s0 h hsort h0 hfree hall => exact hI.ordered i' j' hmem
  | doneIndexAndNumbers i B sA hmem0 hA => exact hI.ordered i' j' (List.mem_of_mem_erase hmem)
  | doneTwoIndexes i j sA sB hmem0 hlt hA hB =>
    exact hI.ordered i' j' (List.mem_of_mem_erase hmem)
  | noPair hp hone => exact hI.ordered i' j' hmem
  | pair a i sa si hp hlt ha hi hra hri hmin =>
    rcases List.mem_cons.1 hmem with e | e
    · cases e
      exact hlt
    · exact hI.ordered i' j' e

/-- A slot a started merge refers to is `MERGING`, so while one is started slot zero is
not `FREE`. -/
theorem Inv.zero_not_free_of_merging {n : Nat} {s : Sys} (hI : Inv n s) {k : Nat}
    {slot s0 : StateNums} (hk : s.container[k]? = some slot) (hs : slot.state ≠ FREE)
    (h0 : s.container[0]? = some s0) : s0.state ≠ FREE := by
  intro hfree
  exact hs (hI.zeroFirst s0 h0 hfree k slot hk)

theorem Move.zeroFirst {n : Nat} {s t : Sys} (hI : Inv n s) (hm : Move n s t) :
    ∀ s0 : StateNums, t.container[0]? = some s0 → s0.state = FREE →
      ∀ (k : Nat) (slot : StateNums), t.container[k]? = some slot → slot.state = FREE := by
  intro z hz hzf k slot hk
  cases hm with
  | fail h => exact hI.zeroFirst z hz hzf k slot hk
  | first s0 x xs h hsort h0 hfree =>
    rcases getElem?_set_cases hz with ⟨_, rfl⟩ | ⟨hne, _⟩
    · cases hzf
    · exact absurd rfl hne
  | partner numbers s0 i si h hsort h0 hfree hi hready hmin =>
    rcases getElem?_set_cases hz with ⟨_, rfl⟩ | ⟨_, hz'⟩
    · cases hzf
    · rw [h0] at hz'
      cases hz'
      exact absurd hzf hfree
  | park numbers s0 i si h hsort h0 hfree hnone hi hifree hmin =>
    rcases getElem?_set_cases hz with ⟨_, rfl⟩ | ⟨_, hz'⟩
    · cases hzf
    · rw [h0] at hz'
      cases hz'
      exact absurd hzf hfree
  | drop numbers s0 h hsort h0 hfree hall => exact hI.zeroFirst z hz hzf k slot hk
  | doneIndexAndNumbers i B sA hmem0 hA =>
    rcases getElem?_set_cases hz with ⟨_, rfl⟩ | ⟨_, hz'⟩
    · cases hzf
    · obtain ⟨slot', hslot', hst⟩ := hI.refsMerging _ hmem0 i (by simp [Launched.refs])
      exact absurd hzf
        (hI.zero_not_free_of_merging hslot' (by rw [hst]; decide) hz')
  | doneTwoIndexes i j sA sB hmem0 hlt hA hB =>
    rcases getElem?_set_cases hz with ⟨_, rfl⟩ | ⟨_, hz'⟩
    · omega
    · rcases getElem?_set_cases hz' with ⟨_, rfl⟩ | ⟨_, hz''⟩
      · cases hzf
      · obtain ⟨slot', hslot', hst⟩ := hI.refsMerging _ hmem0 i (by simp [Launched.refs])
        exact absurd hzf
          (hI.zero_not_free_of_merging hslot' (by rw [hst]; decide) hz'')
  | noPair hp hone => exact hI.zeroFirst z hz hzf k slot hk
  | pair a i sa si hp hlt ha hi hra hri hmin =>
    rcases getElem?_set_cases hz with ⟨_, rfl⟩ | ⟨_, hz'⟩
    · cases hzf
    · rcases getElem?_set_cases hz' with ⟨_, rfl⟩ | ⟨_, hz''⟩
      · cases hzf
      · exact absurd hzf (hI.zero_not_free_of_merging ha (by rw [hra]; decide) hz'')

theorem Move.freshZero {n : Nat} {s t : Sys} (hI : Inv n s) (hm : Move n s t) :
    ∀ s0 : StateNums, t.container[0]? = some s0 → s0.state = FREE →
      s0.Numbers = [] ∧ t.arrived = [] := by
  intro z hz hzf
  cases hm with
  | fail h => exact hI.freshZero z hz hzf
  | first s0 x xs h hsort h0 hfree =>
    rcases getElem?_set_cases hz with ⟨_, rfl⟩ | ⟨hne, _⟩
    · cases hzf
    · exact absurd rfl hne
  | partner numbers s0 i si h hsort h0 hfree hi hready hmin =>
    rcases getElem?_set_cases hz with ⟨_, rfl⟩ | ⟨_, hz'⟩
    · cases hzf
    · rw [h0] at hz'
      cases hz'
      exact absurd hzf hfree
  | park numbers s0 i si h hsort h0 hfree hnone hi hifree hmin =>
    rcases getElem?_set_cases hz with ⟨_, rfl⟩ | ⟨_, hz'⟩
    · cases hzf
    · rw [h0] at hz'
      cases hz'
      exact absurd hzf hfree
  | drop numbers s0 h hsort h0 hfree hall =>
    rw [h0] at hz
    cases hz
    exact absurd hzf hfree
  | doneIndexAndNumbers i B sA hmem0 hA =>
    rcases getElem?_set_cases hz with ⟨_, rfl⟩ | ⟨_, hz'⟩
    · cases hzf
    · obtain ⟨slot', hslot', hst⟩ := hI.refsMerging _ hmem0 i (by simp [Launched.refs])
      exact absurd hzf
        (hI.zero_not_free_of_merging hslot' (by rw [hst]; decide) hz')
  | doneTwoIndexes i j sA sB hmem0 hlt hA hB =>
    rcases getElem?_set_cases hz with ⟨_, rfl⟩ | ⟨_, hz'⟩
    · omega
    · rcases getElem?_set_cases hz' with ⟨_, rfl⟩ | ⟨_, hz''⟩
      · cases hzf
      · obtain ⟨slot', hslot', hst⟩ := hI.refsMerging _ hmem0 i (by simp [Launched.refs])
        exact absurd hzf
          (hI.zero_not_free_of_merging hslot' (by rw [hst]; decide) hz'')
  | noPair hp hone => exact hI.freshZero z hz hzf
  | pair a i sa si hp hlt ha hi hra hri hmin =>
    rcases getElem?_set_cases hz with ⟨_, rfl⟩ | ⟨_, hz'⟩
    · cases hzf
    · rcases getElem?_set_cases hz' with ⟨_, rfl⟩ | ⟨_, hz''⟩
      · cases hzf
      · exact absurd hzf (hI.zero_not_free_of_merging ha (by rw [hra]; decide) hz'')

theorem Move.readyPair {n : Nat} {s t : Sys} (hI : Inv n s) (hm : Move n s t) :
    ∀ (i j : Nat) (si sj : StateNums), i ≠ j → t.container[i]? = some si →
      t.container[j]? = some sj → si.state = READY → sj.state = READY →
      t.merges ≠ [] ∨ 0 < t.pending := by
  intro k1 k2 s1 s2 hne h1 h2 hr1 hr2
  cases hm with
  | fail h => exact hI.readyPair k1 k2 s1 s2 hne h1 h2 hr1 hr2
  | first s0 x xs h hsort h0 hfree =>
    have hall := hI.zeroFirst s0 h0 hfree
    rcases getElem?_set_cases h1 with ⟨e1, _⟩ | ⟨_, h1'⟩
    · rcases getElem?_set_cases h2 with ⟨e2, _⟩ | ⟨_, h2'⟩
      · omega
      · have := hall k2 s2 h2'
        rw [hr2] at this
        cases this
    · have := hall k1 s1 h1'
      rw [hr1] at this
      cases this
  | partner numbers s0 i si h hsort h0 hfree hi hready hmin =>
    exact Or.inl (List.cons_ne_nil _ _)
  | park numbers s0 i si h hsort h0 hfree hnone hi hifree hmin =>
    rcases getElem?_set_cases h1 with ⟨e1, _⟩ | ⟨_, h1'⟩
    · rcases getElem?_set_cases h2 with ⟨e2, _⟩ | ⟨_, h2'⟩
      · omega
      · exact absurd hr2 (hnone k2 s2 h2')
    · exact absurd hr1 (hnone k1 s1 h1')
  | drop numbers s0 h hsort h0 hfree hall => exact hI.readyPair k1 k2 s1 s2 hne h1 h2 hr1 hr2
  | doneIndexAndNumbers i B sA hmem0 hA => exact Or.inr (Nat.succ_pos _)
  | doneTwoIndexes i j sA sB hmem0 hlt hA hB => exact Or.inr (Nat.succ_pos _)
  | noPair hp hone => exact absurd (hone k1 k2 s1 s2 h1 h2 hr1 hr2) hne
  | pair a i sa si hp hlt ha hi hra hri hmin => exact Or.inl (List.cons_ne_nil _ _)

/-- Both scans of `putNumbers` cannot run to the end: while a source is still to be
processed a slot is `READY` or `FREE`. -/
theorem Inv.not_all_merging {n : Nat} {s : Sys} (hI : Inv n s) (h : s.processed < n)
    (hall : ∀ (j : Nat) (sj : StateNums), s.container[j]? = some sj →
      sj.state ≠ READY ∧ sj.state ≠ FREE) : False := by
  have h1 := nonFree_eq_length fun j sj hj => (hall j sj hj).2
  have h2 := hI.occupied
  have h3 := hI.len
  unfold Sys.processed at h
  split at h3 <;> omega

theorem Inv.state_of_ref {n : Nat} {s : Sys} (hI : Inv n s) {m : Launched} {k : Nat}
    {slot : StateNums} (hm : m ∈ s.merges) (hr : k ∈ m.refs)
    (hk : s.container[k]? = some slot) : slot.state = MERGING := by
  obtain ⟨slot', hslot', hst⟩ := hI.refsMerging m hm k hr
  rw [hk] at hslot'
  cases hslot'
  exact hst

theorem Move.occupied {n : Nat} {s t : Sys} (hI : Inv n s) (hm : Move n s t) :
    nonFree t.container ≤ t.arrived.length := by
  have ho := hI.occupied
  cases hm with
  | fail h => exact ho
  | first s0 x xs h hsort h0 hfree =>
    have := nonFree_set ⟨READY, x :: uniqueLoop x xs⟩ h0
    simp only [hfree, ne_eq, not_true_eq_false, if_false, reduceCtorEq, not_false_eq_true,
      if_true] at this
    simp only [List.length_cons]
    omega
  | partner numbers s0 i si h hsort h0 hfree hi hready hmin =>
    have := nonFree_set { si with state := MERGING } hi
    simp only [hready, ne_eq, reduceCtorEq, not_false_eq_true, if_true] at this
    simp only [List.length_cons]
    omega
  | park numbers s0 i si h hsort h0 hfree hnone hi hifree hmin =>
    have := nonFree_set ⟨READY, numbers⟩ hi
    simp only [hifree, ne_eq, not_true_eq_false, if_false, reduceCtorEq, not_false_eq_true,
      if_true] at this
    simp only [List.length_cons]
    omega
  | drop numbers s0 h hsort h0 hfree hall =>
    simp only [List.length_cons]
    omega
  | doneIndexAndNumbers i B sA hmem0 hA =>
    have hs := hI.state_of_ref hmem0 (by simp [Launched.refs]) hA
    have := nonFree_set ⟨READY, mergeUnique sA.Numbers B⟩ hA
    simp only [hs, ne_eq, reduceCtorEq, not_false_eq_true, if_true] at this
    show nonFree (s.container.set i _) ≤ s.arrived.length
    omega
  | doneTwoIndexes i j sA sB hmem0 hlt hA hB =>
    have hsA := hI.state_of_ref hmem0 (by simp [Launched.refs]) hA
    have hsB := hI.state_of_ref hmem0 (by simp [Launched.refs]) hB
    have h1 := nonFree_set ⟨READY, mergeUnique sA.Numbers sB.Numbers⟩ hA
    have hB' : (s.container.set i ⟨READY, mergeUnique sA.Numbers sB.Numbers⟩)[j]? =
        some sB := by
      rw [List.getElem?_set_ne (by omega), hB]
    have h2 := nonFree_set ⟨FREE, sB.Numbers⟩ hB'
    simp only [hsA, hsB, ne_eq, reduceCtorEq, not_false_eq_true, if_true,
      not_true_eq_false, if_false] at h1 h2
    show nonFree ((s.container.set i _).set j _) ≤ s.arrived.length
    omega
  | noPair hp hone => exact ho
  | pair a i sa si hp hlt ha hi hra hri hmin =>
    have h1 := nonFree_set { sa with state := MERGING } ha
    have hi' : (s.container.set a { sa with state := MERGING })[i]? = some si := by
      rw [List.getElem?_set_ne (by omega), hi]
    have h2 := nonFree_set { si with state := MERGING } hi'
    simp only [hra, hri, ne_eq, reduceCtorEq, not_false_eq_true, if_true] at h1 h2
    show nonFree ((s.container.set a _).set i _) ≤ s.arrived.length
    omega

theorem Move.conservation {n : Nat} {s t : Sys} (hI : Inv n s) (hm : Move n s t) :
    t.count + t.merges.countP Launched.carries + nonFree t.container =
      t.processed + if nonFree t.container = 0 then 0 else 1 := by
  have hc := hI.conservation
  unfold Sys.processed at hc ⊢
  cases hm with
  | fail h =>
    show s.count + 1 + s.merges.countP Launched.carries + nonFree s.container =
      s.failed + 1 + s.arrived.length + if nonFree s.container = 0 then 0 else 1
    omega
  | first s0 x xs h hsort h0 hfree =>
    have h1 := nonFree_set ⟨READY, x :: uniqueLoop x xs⟩ h0
    have h2 := nonFree_eq_zero (hI.zeroFirst s0 h0 hfree)
    simp only [hfree, ne_eq, not_true_eq_false, if_false, reduceCtorEq, not_false_eq_true,
      if_true] at h1
    simp only [h2, if_true] at hc
    have h3 : nonFree (s.container.set 0 ⟨READY, x :: uniqueLoop x xs⟩) = 1 := by omega
    simp only [h3, List.length_cons]
    simp only [Nat.add_zero] at hc
    simp only [Nat.succ_ne_zero, if_false]
    omega
  | partner numbers s0 i si h hsort h0 hfree hi hready hmin =>
    have h1 := nonFree_set { si with state := MERGING } hi
    have h2 := nonFree_pos hi (by rw [hready]; decide)
    simp only [hready, ne_eq, reduceCtorEq, not_false_eq_true, if_true] at h1
    have h3 : nonFree (s.container.set i { si with state := MERGING }) =
        nonFree s.container := by omega
    simp only [h3, List.length_cons, List.countP_cons, Launched.carries, if_true]
    omega
  | park numbers s0 i si h hsort h0 hfree hnone hi hifree hmin =>
    have h1 := nonFree_set ⟨READY, numbers⟩ hi
    have h2 := nonFree_pos h0 hfree
    simp only [hifree, ne_eq, not_true_eq_false, if_false, reduceCtorEq, not_false_eq_true,
      if_true] at h1
    have h3 : nonFree (s.container.set i ⟨READY, numbers⟩) = nonFree s.container + 1 := by
      omega
    have h4 : ¬ nonFree s.container = 0 := by omega
    simp only [h4, if_false] at hc
    simp only [h3, List.length_cons, Nat.succ_ne_zero, if_false]
    omega
  | drop numbers s0 h hsort h0 hfree hall => exact (hI.not_all_merging h hall).elim
  | doneIndexAndNumbers i B sA hmem0 hA =>
    have hs := hI.state_of_ref hmem0 (by simp [Launched.refs]) hA
    have h1 := nonFree_set ⟨READY, mergeUnique sA.Numbers B⟩ hA
    have h2 := countP_erase_add Launched.carries hmem0
    simp only [hs, ne_eq, reduceCtorEq, not_false_eq_true, if_true] at h1
    simp only [Launched.carries, if_true] at h2
    have h3 : nonFree (s.container.set i ⟨READY, mergeUnique sA.Numbers B⟩) =
        nonFree s.container := by omega
    show s.count + 1 + (s.merges.erase _).countP Launched.carries +
        nonFree (s.container.set i _) = s.failed + s.arrived.length +
        if nonFree (s.container.set i _) = 0 then 0 else 1
    rw [h3]
    omega
  | doneTwoIndexes i j sA sB hmem0 hlt hA hB =>
    have hsA := hI.state_of_ref hmem0 (by simp [Launched.refs]) hA
    have hsB := hI.state_of_ref hmem0 (by simp [Launched.refs]) hB
    have h1 := nonFree_set ⟨READY, mergeUnique sA.Numbers sB.Numbers⟩ hA
    have hB' : (s.container.set i ⟨READY, mergeUnique sA.Numbers sB.Numbers⟩)[j]? =
        some sB := by
      rw [List.getElem?_set_ne (by omega), hB]
    have h2 := nonFree_set ⟨FREE, sB.Numbers⟩ hB'
    have h3 := countP_erase_add Launched.carries hmem0
    have hA' : ((s.container.set i ⟨READY, mergeUnique sA.Numbers sB.Numbers⟩).set j
        ⟨FREE, sB.Numbers⟩)[i]? = some ⟨READY, mergeUnique sA.Numbers sB.Numbers⟩ := by
      rw [List.getElem?_set_ne (by omega), getElem?_set_of_some hA]
    have hnf : (⟨READY, mergeUnique sA.Numbers sB.Numbers⟩ : StateNums).state ≠ FREE := by
      simp
    have h4 := nonFree_pos hA' hnf
    simp only [hsA, hsB, ne_eq, reduceCtorEq, not_false_eq_true, if_true,
      not_true_eq_false, if_false] at h1 h2
    simp only [Launched.carries, Bool.false_eq_true, if_false] at h3
    have h5 : ¬ nonFree s.container = 0 := by omega
    have h6 : ¬ nonFree ((s.container.set i ⟨READY, mergeUnique sA.Numbers sB.Numbers⟩).set
        j ⟨FREE, sB.Numbers⟩) = 0 := by omega
    simp only [h5, if_false] at hc
    show s.count + 1 + (s.merges.erase _).countP Launched.carries +
        nonFree ((s.container.set i _).set j _) = s.failed + s.arrived.length +
        if nonFree ((s.container.set i _).set j _) = 0 then 0 else 1
    simp only [h6, if_false]
    omega
  | noPair hp hone => exact hc
  | pair a i sa si hp hlt ha hi hra hri hmin =>
    have h1 := nonFree_set { sa with state := MERGING } ha
    have hi' : (s.container.set a { sa with state := MERGING })[i]? = some si := by
      rw [List.getElem?_set_ne (by omega), hi]
    have h2 := nonFree_set { si with state := MERGING } hi'
    simp only [hra, hri, ne_eq, reduceCtorEq, not_false_eq_true, if_true] at h1 h2
    have h3 : nonFree ((s.container.set a { sa with state := MERGING }).set i
        { si with state := MERGING }) = nonFree s.container := by omega
    simp only [h3, List.countP_cons, Launched.carries, Bool.false_eq_true, if_false]
    exact hc

theorem held_of_slot {tb : Container} {ms : List Launched} {x : Int} {k : Nat}
    {slot : StateNums} (hk : tb[k]? = some slot) (hs : slot.state ≠ FREE)
    (hx : x ∈ slot.Numbers) : held tb ms x :=
  Or.inl ⟨k, slot, hk, hs, hx⟩

theorem held_of_merge {tb : Container} {ms : List Launched} {x : Int} {i : Nat}
    {B : List Int} (hm : Launched.mergeIndexAndNumbers i B ∈ ms) (hx : x ∈ B) :
    held tb ms x :=
  Or.inr ⟨i, B, hm, hx⟩

/-- What a step does to the integers the table holds: an arrival adds the elements of
the sequence handed over, and no other step changes them. -/
theorem Move.held_iff {n : Nat} {s t : Sys} (hI : Inv n s) (hm : Move n s t) (x : Int) :
    held t.container t.merges x ↔
      held s.container s.merges x ∨
        (t.arrived ≠ s.arrived ∧ ∃ l, t.arrived.head? = some l ∧ x ∈ l) := by
  cases hm with
  | fail h => simp
  | first s0 x0 xs h hsort h0 hfree =>
    have hu := (uniqueLoop_spec xs x0 hsort).2 x
    have hnew : (s.container.set 0 ⟨READY, x0 :: uniqueLoop x0 xs⟩)[0]? =
        some ⟨READY, x0 :: uniqueLoop x0 xs⟩ := getElem?_set_of_some h0
    constructor
    · rintro (⟨k, slot, hk, hs, hx⟩ | ⟨i, B, hB, hx⟩)
      · rcases getElem?_set_cases hk with ⟨_, rfl⟩ | ⟨_, hk'⟩
        · exact Or.inr ⟨by simp, _, rfl, hu.1 hx⟩
        · exact Or.inl (held_of_slot hk' hs hx)
      · exact Or.inl (held_of_merge hB hx)
    · rintro ((⟨k, slot, hk, hs, hx⟩ | ⟨i, B, hB, hx⟩) | ⟨_, l, hl, hx⟩)
      · exact held_of_slot (getElem?_set_other _ h0 hk (by rw [hfree]; exact hs)) hs hx
      · exact held_of_merge hB hx
      · simp only [List.head?_cons, Option.some.injEq] at hl
        subst hl
        exact held_of_slot hnew (by simp) (hu.2 hx)
  | partner numbers s0 i si h hsort h0 hfree hi hready hmin =>
    have hnew : (s.container.set i { si with state := MERGING })[i]? =
        some { si with state := MERGING } := getElem?_set_of_some hi
    constructor
    · rintro (⟨k, slot, hk, hs, hx⟩ | ⟨i', B, hB, hx⟩)
      · rcases getElem?_set_cases hk with ⟨_, rfl⟩ | ⟨_, hk'⟩
        · exact Or.inl (held_of_slot hi (by rw [hready]; decide) hx)
        · exact Or.inl (held_of_slot hk' hs hx)
      · rcases List.mem_cons.1 hB with e | e
        · cases e
          exact Or.inr ⟨by simp, _, rfl, hx⟩
        · exact Or.inl (held_of_merge e hx)
    · rintro ((⟨k, slot, hk, hs, hx⟩ | ⟨i', B, hB, hx⟩) | ⟨_, l, hl, hx⟩)
      · by_cases hki : k = i
        · subst hki
          rw [hi] at hk
          cases hk
          exact held_of_slot hnew (by simp) hx
        · exact held_of_slot (by rw [List.getElem?_set_ne (Ne.symm hki), hk]) hs hx
      · exact held_of_merge (List.mem_cons_of_mem _ hB) hx
      · simp only [List.head?_cons, Option.some.injEq] at hl
        subst hl
        exact held_of_merge (List.mem_cons_self _ _) hx
  | park numbers s0 i si h hsort h0 hfree hnone hi hifree hmin =>
    have hnew : (s.container.set i ⟨READY, numbers⟩)[i]? = some ⟨READY, numbers⟩ :=
      getElem?_set_of_some hi
    constructor
    · rintro (⟨k, slot, hk, hs, hx⟩ | ⟨i', B, hB, hx⟩)
      · rcases getElem?_set_cases hk with ⟨_, rfl⟩ | ⟨_, hk'⟩
        · exact Or.inr ⟨by simp, _, rfl, hx⟩
        · exact Or.inl (held_of_slot hk' hs hx)
      · exact Or.inl (held_of_merge hB hx)
    · rintro ((⟨k, slot, hk, hs, hx⟩ | ⟨i', B, hB, hx⟩) | ⟨_, l, hl, hx⟩)
      · exact held_of_slot (getElem?_set_other _ hi hk (by rw [hifree]; exact hs)) hs hx
      · exact held_of_merge hB hx
      · simp only [List.head?_cons, Option.some.injEq] at hl
        subst hl
        exact held_of_slot hnew (by simp) hx
  | drop numbers s0 h hsort h0 hfree hall => exact (hI.not_all_merging h hall).elim
  | doneIndexAndNumbers i B sA hmem0 hA =>
    have hs := hI.state_of_ref hmem0 (by simp [Launched.refs]) hA
    have hnew : (s.container.set i ⟨READY, mergeUnique sA.Numbers B⟩)[i]? =
        some ⟨READY, mergeUnique sA.Numbers B⟩ := getElem?_set_of_some hA
    simp only [ne_eq, not_true_eq_false, false_and, or_false]
    constructor
    · rintro (⟨k, slot, hk, hs', hx⟩ | ⟨i', B', hB, hx⟩)
      · rcases getElem?_set_cases hk with ⟨_, rfl⟩ | ⟨_, hk'⟩
        · rcases (mem_mergeUnique _ _ x).1 hx with hx' | hx'
          · exact held_of_slot hA (by rw [hs]; decide) hx'
          · exact held_of_merge hmem0 hx'
        · exact held_of_slot hk' hs' hx
      · exact held_of_merge (List.mem_of_mem_erase hB) hx
    · rintro (⟨k, slot, hk, hs', hx⟩ | ⟨i', B', hB, hx⟩)
      · by_cases hki : k = i
        · subst hki
          rw [hA] at hk
          cases hk
          exact held_of_slot hnew (by simp) ((mem_mergeUnique _ _ x).2 (Or.inl hx))
        · exact held_of_slot (by rw [List.getElem?_set_ne (Ne.symm hki), hk]) hs' hx
      · by_cases he : Launched.mergeIndexAndNumbers i' B' = Launched.mergeIndexAndNumbers i B
        · cases he
          exact held_of_slot hnew (by simp) ((mem_mergeUnique _ _ x).2 (Or.inr hx))
        · exact held_of_merge ((List.mem_erase_of_ne he).2 hB) hx
  | doneTwoIndexes i j sA sB hmem0 hlt hA hB =>
    have hsA := hI.state_of_ref hmem0 (by simp [Launched.refs]) hA
    have hsB := hI.state_of_ref hmem0 (by simp [Launched.refs]) hB
    have hnew : ((s.container.set i ⟨READY, mergeUnique sA.Numbers sB.Numbers⟩).set j
        ⟨FREE, sB.Numbers⟩)[i]? = some ⟨READY, mergeUnique sA.Numbers sB.Numbers⟩ := by
      rw [List.getElem?_set_ne (by omega), getElem?_set_of_some hA]
    simp only [ne_eq, not_true_eq_false, false_and, or_false]
    constructor
    · rintro (⟨k, slot, hk, hs', hx⟩ | ⟨i', B', hB', hx⟩)
      · rcases getElem?_set_cases hk with ⟨_, rfl⟩ | ⟨_, hk'⟩
        · exact absurd rfl hs'
        · rcases getElem?_set_cases hk' with ⟨_, rfl⟩ | ⟨_, hk''⟩
          · rcases (mem_mergeUnique _ _ x).1 hx with hx' | hx'
            · exact held_of_slot hA (by rw [hsA]; decide) hx'
            · exact held_of_slot hB (by rw [hsB]; decide) hx'
          · exact held_of_slot hk'' hs' hx
      · exact held_of_merge (List.mem_of_mem_erase hB') hx
    · rintro (⟨k, slot, hk, hs', hx⟩ | ⟨i', B', hB', hx⟩)
      · by_cases hki : k = i
        · subst hki
          rw [hA] at hk
          cases hk
          exact held_of_slot hnew (by simp) ((mem_mergeUnique _ _ x).2 (Or.inl hx))
        · by_cases hkj : k = j
          · subst hkj
            rw [hB] at hk
            cases hk
            exact held_of_slot hnew (by simp) ((mem_mergeUnique _ _ x).2 (Or.inr hx))
          · exact held_of_slot (by
              rw [List.getElem?_set_ne (Ne.symm hkj), List.getElem?_set_ne (Ne.symm hki), hk])
              hs' hx
      · exact held_of_merge ((List.mem_erase_of_ne (by simp)).2 hB') hx
  | noPair hp hone => simp
  | pair a i sa si hp hlt ha hi hra hri hmin =>
    have hnewa : ((s.container.set a { sa with state := MERGING }).set i
        { si with state := MERGING })[a]? = some { sa with state := MERGING } := by
      rw [List.getElem?_set_ne (by omega), getElem?_set_of_some ha]
    have hnewi : ((s.container.set a { sa with state := MERGING }).set i
        { si with state := MERGING })[i]? = some { si with state := MERGING } := by
      have hi' : (s.container.set a { sa with state := MERGING })[i]? = some si := by
        rw [List.getElem?_set_ne (by omega), hi]
      exact getElem?_set_of_some hi'
    simp only [ne_eq, not_true_eq_false, false_and, or_false]
    constructor
    · rintro (⟨k, slot, hk, hs', hx⟩ | ⟨i', B', hB', hx⟩)
      · rcases getElem?_set_cases hk with ⟨_, rfl⟩ | ⟨_, hk'⟩
        · exact held_of_slot hi (by rw [hri]; decide) hx
        · rcases getElem?_set_cases hk' with ⟨_, rfl⟩ | ⟨_, hk''⟩
          · exact held_of_slot ha (by rw [hra]; decide) hx
          · exact held_of_slot hk'' hs' hx
      · rcases List.mem_cons.1 hB' with e | e
        · cases e
        · exact held_of_merge e hx
    · rintro (⟨k, slot, hk, hs', hx⟩ | ⟨i', B', hB', hx⟩)
      · by_cases hki : k = i
        · subst hki
          rw [hi] at hk
          cases hk
          exact held_of_slot hnewi (by simp) hx
        · by_cases hka : k = a
          · subst hka
            rw [ha] at hk
            cases hk
            exact held_of_slot hnewa (by simp) hx
          · exact held_of_slot (by
              rw [List.getElem?_set_ne (Ne.symm hki), List.getElem?_set_ne (Ne.symm hka), hk])
              hs' hx
      · exact held_of_merge (List.mem_cons_of_mem _ hB') hx

theorem Move.arrived {n : Nat} {s t : Sys} (hm : Move n s t) :
    t.arrived = s.arrived ∨ ∃ l, t.arrived = l :: s.arrived := by
  cases hm with
  | fail h => exact Or.inl rfl
  | first s0 x xs h hsort h0 hfree => exact Or.inr ⟨_, rfl⟩
  | partner numbers s0 i si h hsort h0 hfree hi hready hmin => exact Or.inr ⟨_, rfl⟩
  | park numbers s0 i si h hsort h0 hfree hnone hi hifree hmin => exact Or.inr ⟨_, rfl⟩
  | drop numbers s0 h hsort h0 hfree hall => exact Or.inr ⟨_, rfl⟩
  | doneIndexAndNumbers i B sA hmem0 hA => exact Or.inl rfl
  | doneTwoIndexes i j sA sB hmem0 hlt hA hB => exact Or.inl rfl
  | noPair hp hone => exact Or.inl rfl
  | pair a i sa si hp hlt ha hi hra hri hmin => exact Or.inl rfl

theorem Move.content {n : Nat} {s t : Sys} (hI : Inv n s) (hm : Move n s t) :
    ∀ x : Int, held t.container t.merges x ↔ ∃ l ∈ t.arrived, x ∈ l := by
  intro x
  rw [Move.held_iff hI hm x, hI.content x]
  rcases Move.arrived hm with e | ⟨l, e⟩
  · rw [e]
    simp
  · rw [e]
    have hne : l :: s.arrived ≠ s.arrived := by
      intro h
      have := congrArg List.length h
      simp at this
    simp only [ne_eq, hne, not_false_eq_true, List.head?_cons, Option.some.injEq, true_and,
      exists_eq_left', List.mem_cons, exists_eq_or_imp]
    exact Or.comm

theorem Move.keeps_inv {n : Nat} {s t : Sys} (hI : Inv n s) (hm : Move n s t) : Inv n t where
  len := Move.len hI hm
  sortedSlots := Move.sortedSlots hI hm
  sortedZero := Move.sortedZero hI hm
  sortedMerges := Move.sortedMerges hI hm
  refsMerging := Move.refsMerging hI hm
  mergesNodup := Move.mergesNodup hI hm
  exclusive := Move.exclusive hI hm
  mergingRef := Move.mergingRef hI hm
  ordered := Move.ordered hI hm
  zeroFirst := Move.zeroFirst hI hm
  freshZero := Move.freshZero hI hm
  readyPair := Move.readyPair hI hm
  occupied := Move.occupied hI hm
  conservation := Move.conservation hI hm
  content := Move.content hI hm

theorem init_getElem? {n k : Nat} {slot : StateNums}
    (h : (Sys.init n).container[k]? = some slot) : slot = ⟨FREE, []⟩ := by
  unfold Sys.init at h
  simp only [List.getElem?_replicate] at h
  by_cases hk : k < (if n = 0 then 1 else n)
  · rw [if_pos hk] at h
    exact (Option.some.inj h).symm
  · rw [if_neg hk] at h
    cases h

theorem Inv.holds_initially (n : Nat) : Inv n (Sys.init n) where
  len := by simp [Sys.init]
  sortedSlots := by
    intro i slot h
    rw [init_getElem? h]
    exact List.sorted_nil
  sortedZero := by
    intro slot h
    rw [init_getElem? h]
    exact List.sorted_nil
  sortedMerges := by
    intro i B h
    simp [Sys.init] at h
  refsMerging := by
    intro m h
    simp [Sys.init] at h
  mergesNodup := by simp [Sys.init]
  exclusive := by
    intro m h
    simp [Sys.init] at h
  mergingRef := by
    intro i slot h hs
    rw [init_getElem? h] at hs
    cases hs
  ordered := by
    intro i j h
    simp [Sys.init] at h
  zeroFirst := by
    intro s0 _ _ i slot h
    rw [init_getElem? h]
  freshZero := by
    intro s0 h _
    rw [init_getElem? h]
    exact ⟨rfl, rfl⟩
  readyPair := by
    intro i j si sj _ hi _ hs
    rw [init_getElem? hi] at hs
    cases hs
  occupied := by
    rw [nonFree_eq_zero fun i slot h => by rw [init_getElem? h]]
    exact Nat.zero_le _
  conservation := by
    rw [nonFree_eq_zero fun i slot h => by rw [init_getElem? h]]
    simp [Sys.init, Sys.processed]
  content := by
    intro x
    constructor
    · rintro (⟨k, slot, hk, hs, hx⟩ | ⟨i, B, hB, hx⟩)
      · rw [init_getElem? hk] at hs
        exact absurd rfl hs
      · simp [Sys.init] at hB
    · rintro ⟨l, hl, _⟩
      simp [Sys.init] at hl

/-- Every reachable state satisfies the invariant. -/
theorem Reachable.satisfies_inv {n : Nat} {s : Sys} (h : Reachable n s) : Inv n s := by
  induction h with
  | init => exact Inv.holds_initially n
  | step s t _ ht ih => exact Move.keeps_inv ih (Step.toMove ih ht)

/-! ## Two runs -/

/-- A request with two sources that answer `[1,3,5]` and `[2,3,4]`: the first arrival
fills slot zero, the second is merged into it, and the call of `findPairs` finds
nothing to pair. -/
theorem run_two_sources :
    Reachable 2 ⟨[⟨READY, [1, 2, 3, 4, 5]⟩, ⟨FREE, []⟩], 2, [], 0, 0, [[2, 3, 4], [1, 3, 5]]⟩ := by
  have h0 : Reachable 2 (Sys.init 2) := Reachable.init
  have h1 : Reachable 2 ⟨[⟨READY, [1, 3, 5]⟩, ⟨FREE, []⟩], 1, [], 0, 0, [[1, 3, 5]]⟩ :=
    Reachable.step _ _ h0
      (Step.arrive (Sys.init 2) [1, 3, 5] ⟨[⟨READY, [1, 3, 5]⟩, ⟨FREE, []⟩], 1, none⟩
        (by decide) (by decide))
  have h2 : Reachable 2 ⟨[⟨MERGING, [1, 3, 5]⟩, ⟨FREE, []⟩], 1,
      [Launched.mergeIndexAndNumbers 0 [2, 3, 4]], 0, 0, [[2, 3, 4], [1, 3, 5]]⟩ :=
    Reachable.step _ _ h1
      (Step.arrive _ [2, 3, 4] ⟨[⟨MERGING, [1, 3, 5]⟩, ⟨FREE, []⟩], 0,
        some (Launched.mergeIndexAndNumbers 0 [2, 3, 4])⟩ (by decide) (by decide))
  have h3 : Reachable 2 ⟨[⟨READY, [1, 2, 3, 4, 5]⟩, ⟨FREE, []⟩], 2, [], 1, 0,
      [[2, 3, 4], [1, 3, 5]]⟩ :=
    Reachable.step _ _ h2
      (Step.completeIndexAndNumbers _ 0 [2, 3, 4] ⟨[⟨READY, [1, 2, 3, 4, 5]⟩, ⟨FREE, []⟩], 1, none⟩
        (by decide) (by simp [mergeIndexAndNumbers, mergeUnique, mergeLoop, emit, drain]))
  exact Reachable.step _ _ h3
    (Step.findPairs _ ⟨[⟨READY, [1, 2, 3, 4, 5]⟩, ⟨FREE, []⟩], 0, none⟩ (by decide) (by decide))

/-- A request with three sources that answer `[1]`, `[2]` and `[3,3]`: the second is being
merged into slot zero when the third arrives, which is parked in slot one as it is. -/
theorem run_parked_duplicates :
    Reachable 3 ⟨[⟨MERGING, [1]⟩, ⟨READY, [3, 3]⟩, ⟨FREE, []⟩], 1,
      [Launched.mergeIndexAndNumbers 0 [2]], 0, 0, [[3, 3], [2], [1]]⟩ := by
  have h0 : Reachable 3 (Sys.init 3) := Reachable.init
  have h1 : Reachable 3 ⟨[⟨READY, [1]⟩, ⟨FREE, []⟩, ⟨FREE, []⟩], 1, [], 0, 0, [[1]]⟩ :=
    Reachable.step _ _ h0
      (Step.arrive (Sys.init 3) [1] ⟨[⟨READY, [1]⟩, ⟨FREE, []⟩, ⟨FREE, []⟩], 1, none⟩
        (by decide) (by decide))
  have h2 : Reachable 3 ⟨[⟨MERGING, [1]⟩, ⟨FREE, []⟩, ⟨FREE, []⟩], 1,
      [Launched.mergeIndexAndNumbers 0 [2]], 0, 0, [[2], [1]]⟩ :=
    Reachable.step _ _ h1
      (Step.arrive _ [2] ⟨[⟨MERGING, [1]⟩, ⟨FREE, []⟩, ⟨FREE, []⟩], 0,
        some (Launched.mergeIndexAndNumbers 0 [2])⟩ (by decide) (by decide))
  exact Reachable.step _ _ h2
    (Step.arrive _ [3, 3] ⟨[⟨MERGING, [1]⟩, ⟨READY, [3, 3]⟩, ⟨FREE, []⟩], 0, none⟩
      (by decide) (by decide))

/-! ## Quiescent states -/

theorem Inv.exists_zero {n : Nat} {s : Sys} (hI : Inv n s) :
    ∃ s0 : StateNums, s.container[0]? = some s0 := by
  have hlen : 0 < s.container.length := by
    have := hI.len
    split at this <;> omega
  exact ⟨s.container[0], List.getElem?_eq_getElem hlen⟩

theorem Inv.not_merging_of_quiescent {n : Nat} {s : Sys} (hI : Inv n s) (hq : s.quiescent)
    {k : Nat} {slot : StateNums} (hk : s.container[k]? = some slot) :
    slot.state ≠ MERGING := by
  intro hs
  obtain ⟨m, hm, _⟩ := hI.mergingRef k slot hk hs
  rw [hq.1] at hm
  cases hm

theorem Inv.others_free_of_quiescent {n : Nat} {s : Sys} (hI : Inv n s) (hq : s.quiescent)
    {k : Nat} {slot : StateNums} (hne : k ≠ 0) (hk : s.container[k]? = some slot) :
    slot.state = FREE := by
  obtain ⟨s0, h0⟩ := hI.exists_zero
  have hk' := hI.not_merging_of_quiescent hq hk
  have h0' := hI.not_merging_of_quiescent hq h0
  cases hs : slot.state with
  | FREE => rfl
  | MERGING => exact absurd hs hk'
  | READY =>
    cases hs0 : s0.state with
    | FREE =>
      have := hI.zeroFirst s0 h0 hs0 k slot hk
      rw [hs] at this
      cases this
    | MERGING => exact absurd hs0 h0'
    | READY =>
      rcases hI.readyPair 0 k s0 slot (Ne.symm hne) h0 hk hs0 hs with h | h
      · exact absurd hq.1 h
      · have := hq.2
        omega

theorem nonFree_le_one {tb : Container}
    (h : ∀ (k : Nat) (slot : StateNums), k ≠ 0 → tb[k]? = some slot → slot.state = FREE) :
    nonFree tb ≤ 1 := by
  cases tb with
  | nil => simp [nonFree]
  | cons s0 rest =>
    have hrest : nonFree rest = 0 :=
      nonFree_eq_zero fun i slot hi => h (i + 1) slot (by omega) (by simpa using hi)
    unfold nonFree at hrest ⊢
    rw [List.countP_cons, hrest]
    split <;> omega

/-! ## The state machine: contract -/

/-- C2: in every reachable state of the slot-table state machine, whatever the number of
sources, slot zero exists and the numbers it holds are strictly ascending: sorted, with
no duplicates. -/
theorem slot_zero_strictly_ascending (n : Nat) (s : Sys) (h : Reachable n s) :
    ∃ slot : StateNums, s.container[0]? = some slot ∧ slot.Numbers.Sorted (· < ·) := by
  have hI := h.satisfies_inv
  obtain ⟨s0, h0⟩ := hI.exists_zero
  exact ⟨s0, h0, hI.sortedZero s0 h0⟩

theorem slot_zero_strictly_ascending_witness :
    ∃ slot : StateNums,
      (⟨[⟨MERGING, [1]⟩, ⟨READY, [3, 3]⟩, ⟨FREE, []⟩], 1,
        [Launched.mergeIndexAndNumbers 0 [2]], 0, 0, [[3, 3], [2], [1]]⟩ : Sys).container[0]? =
        some slot ∧ slot.Numbers.Sorted (· < ·) :=
  slot_zero_strictly_ascending 3 _ run_parked_duplicates

/-- C3: in every reachable quiescent state (no started merge uncompleted, no call of
`findPairs` pending) slot zero holds exactly the integers of the sequences handed to
`putNumbers` so far. When all `n` sources have succeeded these are the sequences of all
`n` sources, and slot zero holds their union. -/
theorem quiescent_slot_zero_union (n : Nat) (s : Sys) (h : Reachable n s)
    (hq : s.quiescent) :
    ∃ slot : StateNums, s.container[0]? = some slot ∧
      ∀ x : Int, x ∈ slot.Numbers ↔ ∃ l ∈ s.arrived, x ∈ l := by
  have hI := h.satisfies_inv
  obtain ⟨s0, h0⟩ := hI.exists_zero
  refine ⟨s0, h0, fun x => ?_⟩
  rw [← hI.content x]
  constructor
  · intro hx
    by_cases hf : s0.state = FREE
    · rw [(hI.freshZero s0 h0 hf).1] at hx
      cases hx
    · exact held_of_slot h0 hf hx
  · rintro (⟨k, slot, hk, hs, hx⟩ | ⟨i, B, hB, _⟩)
    · by_cases hk0 : k = 0
      · subst hk0
        rw [h0] at hk
        cases hk
        exact hx
      · exact absurd (hI.others_free_of_quiescent hq hk0 hk) hs
    · rw [hq.1] at hB
      cases hB

theorem quiescent_slot_zero_union_witness :
    (⟨[⟨READY, [1, 2, 3, 4, 5]⟩, ⟨FREE, []⟩], 2, [], 0, 0, [[2, 3, 4], [1, 3, 5]]⟩ :
        Sys).arrived.length = 2 ∧
      ∃ slot : StateNums,
        (⟨[⟨READY, [1, 2, 3, 4, 5]⟩, ⟨FREE, []⟩], 2, [], 0, 0, [[2, 3, 4], [1, 3, 5]]⟩ :
          Sys).container[0]? = some slot ∧
        ∀ x : Int, x ∈ slot.Numbers ↔ ∃ l ∈ [[2, 3, 4], [1, 3, 5]], x ∈ l :=
  ⟨rfl, quiescent_slot_zero_union 2 _ run_two_sources ⟨rfl, rfl⟩⟩

/-- C4: terminal-event conservation. In every reachable state the number of sends on
`count` is at most the number of sources processed, and in every quiescent state in
which all `n` sources have been processed it is exactly `n`. -/
theorem terminal_event_conservation (n : Nat) (s : Sys) (h : Reachable n s) :
    s.count ≤ s.processed ∧ (s.quiescent → s.processed = n → s.count = n) := by
  have hI := h.satisfies_inv
  have hc := hI.conservation
  constructor
  · by_cases hz : nonFree s.container = 0
    · simp only [hz, if_true] at hc
      omega
    · simp only [hz, if_false] at hc
      omega
  · intro hq hall
    have h1 := nonFree_le_one fun k slot hk0 hk => hI.others_free_of_quiescent hq hk0 hk
    rw [hq.1] at hc
    simp only [List.countP_nil] at hc
    by_cases hz : nonFree s.container = 0
    · simp only [hz, if_true] at hc
      omega
    · simp only [hz, if_false] at hc
      omega

theorem terminal_event_conservation_witness :
    (⟨[⟨READY, [1, 2, 3, 4, 5]⟩, ⟨FREE, []⟩], 2, [], 0, 0, [[2, 3, 4], [1, 3, 5]]⟩ :
        Sys).count = 2 ∧
      ((⟨[⟨READY, [1, 2, 3, 4, 5]⟩, ⟨FREE, []⟩], 2, [], 0, 0, [[2, 3, 4], [1, 3, 5]]⟩ :
          Sys).count ≤
          (⟨[⟨READY, [1, 2, 3, 4, 5]⟩, ⟨FREE, []⟩], 2, [], 0, 0, [[2, 3, 4], [1, 3, 5]]⟩ :
            Sys).processed ∧
        ((⟨[⟨READY, [1, 2, 3, 4, 5]⟩, ⟨FREE, []⟩], 2, [], 0, 0, [[2, 3, 4], [1, 3, 5]]⟩ :
            Sys).quiescent →
          (⟨[⟨READY, [1, 2, 3, 4, 5]⟩, ⟨FREE, []⟩], 2, [], 0, 0, [[2, 3, 4], [1, 3, 5]]⟩ :
            Sys).processed = 2 →
          (⟨[⟨READY, [1, 2, 3, 4, 5]⟩, ⟨FREE, []⟩], 2, [], 0, 0, [[2, 3, 4], [1, 3, 5]]⟩ :
            Sys).count = 2)) :=
  ⟨rfl, terminal_event_conservation 2 _ run_two_sources⟩

/-- C10, the claim as stated fails: in a request with three sources answering `[1]`, `[2]`
and `[3,3]`, the third sequence arrives while slot zero is `MERGING` and is parked in
slot one, which is then `READY` and holds `[3,3]`. -/
theorem parked_slot_holds_duplicates :
    ∃ s : Sys, Reachable 3 s ∧ ∃ slot : StateNums, s.container[1]? = some slot ∧
      slot.state ≠ MERGING ∧ ¬ slot.Numbers.Sorted (· < ·) :=
  ⟨_, run_parked_duplicates, ⟨READY, [3, 3]⟩, rfl, by decide, by decide⟩

/-- C10, amended: in every reachable state every slot whose state is not `MERGING` holds a
sequence sorted in non-decreasing order, and slot zero's sequence is strictly
ascending. -/
theorem slot_numbers_sorted (n : Nat) (s : Sys) (h : Reachable n s) (i : Nat)
    (slot : StateNums) (hi : s.container[i]? = some slot) (_hs : slot.state ≠ MERGING) :
    slot.Numbers.Sorted (· ≤ ·) ∧ (i = 0 → slot.Numbers.Sorted (· < ·)) := by
  have hI := h.satisfies_inv
  refine ⟨hI.sortedSlots i slot hi, fun hz => ?_⟩
  subst hz
  exact hI.sortedZero slot hi

theorem slot_numbers_sorted_witness :
    (⟨[⟨MERGING, [1]⟩, ⟨READY, [3, 3]⟩, ⟨FREE, []⟩], 1,
        [Launched.mergeIndexAndNumbers 0 [2]], 0, 0, [[3, 3], [2], [1]]⟩ : Sys).container[1]? =
        some ⟨READY, [3, 3]⟩ ∧ READY ≠ MERGING ∧
      (([3, 3] : List Int).Sorted (· ≤ ·) ∧
        ((1 : Nat) = 0 → ([3, 3] : List Int).Sorted (· < ·))) :=
  ⟨rfl, by decide,
    slot_numbers_sorted 3 _ run_parked_duplicates 1 ⟨READY, [3, 3]⟩ rfl (by decide)⟩

/-! ## Merge exclusivity -/

theorem countP_le_one_of_unique {α : Type} (p : α → Bool) {l : List α} (hn : l.Nodup)
    (hu : ∀ a ∈ l, ∀ b ∈ l, p a = true → p b = true → a = b) : l.countP p ≤ 1 := by
  induction l with
  | nil => simp
  | cons y ys ih =>
    have hn' := List.nodup_cons.1 hn
    have hys : ys.countP p ≤ 1 :=
      ih hn'.2 fun a ha b hb => hu a (List.mem_cons_of_mem _ ha) b (List.mem_cons_of_mem _ hb)
    by_cases hy : p y = true
    · have hzero : ys.countP p = 0 := by
        rw [List.countP_eq_zero]
        intro a ha hpa
        have := hu y (List.mem_cons_self _ _) a (List.mem_cons_of_mem _ ha) hy hpa
        subst this
        exact hn'.1 ha
      rw [List.countP_cons, hzero, if_pos hy]
    · rw [List.countP_cons, if_neg hy]
      exact hys

theorem Inv.refs_countP_le_one {n : Nat} {s : Sys} (hI : Inv n s) (i : Nat) :
    s.merges.countP (fun m => decide (i ∈ m.refs)) ≤ 1 := by
  apply countP_le_one_of_unique _ hI.mergesNodup
  intro a ha b hb hpa hpb
  exact hI.exclusive a ha b hb i (by simpa using hpa) (by simpa using hpb)

/-- C11: merge exclusivity. In every reachable state each slot index is referred to by at
most one started and uncompleted merge, every slot such a merge refers to is `MERGING`,
and every `MERGING` slot is referred to by exactly one such merge. -/
theorem merge_exclusivity (n : Nat) (s : Sys) (h : Reachable n s) :
    (∀ i : Nat, s.merges.countP (fun m => decide (i ∈ m.refs)) ≤ 1) ∧
      (∀ m ∈ s.merges, ∀ i ∈ m.refs,
        ∃ slot : StateNums, s.container[i]? = some slot ∧ slot.state = MERGING) ∧
      ∀ (i : Nat) (slot : StateNums), s.container[i]? = some slot → slot.state = MERGING →
        s.merges.countP (fun m => decide (i ∈ m.refs)) = 1 := by
  have hI := h.satisfies_inv
  refine ⟨hI.refs_countP_le_one, hI.refsMerging, ?_⟩
  intro i slot hi hs
  have hle := hI.refs_countP_le_one i
  obtain ⟨m, hm, hr⟩ := hI.mergingRef i slot hi hs
  have hpos : 0 < s.merges.countP (fun m => decide (i ∈ m.refs)) := by
    rw [List.countP_pos_iff]
    exact ⟨m, hm, by simpa using hr⟩
  omega

theorem merge_exclusivity_witness :
    (∀ i : Nat, [Launched.mergeIndexAndNumbers 0 [2]].countP
        (fun m => decide (i ∈ m.refs)) ≤ 1) ∧
      (∀ m ∈ [Launched.mergeIndexAndNumbers 0 [2]], ∀ i ∈ m.refs,
        ∃ slot : StateNums,
          ([⟨MERGING, [1]⟩, ⟨READY, [3, 3]⟩, ⟨FREE, []⟩] : Container)[i]? = some slot ∧
            slot.state = MERGING) ∧
      ∀ (i : Nat) (slot : StateNums),
        ([⟨MERGING, [1]⟩, ⟨READY, [3, 3]⟩, ⟨FREE, []⟩] : Container)[i]? = some slot →
        slot.state = MERGING →
        [Launched.mergeIndexAndNumbers 0 [2]].countP (fun m => decide (i ∈ m.refs)) = 1 :=
  merge_exclusivity 3 _ run_parked_duplicates

/-! ## The merge primitive: behaviour -/

theorem mem_referenceMerge (a b : List Int) (x : Int) :
    x ∈ referenceMerge a b ↔ x ∈ a ∨ x ∈ b := by
  induction a, b using referenceMerge.induct with
  | case1 x' xs y ys h ih =>
    rw [referenceMerge, if_pos h, List.mem_cons, ih]
    simp only [List.mem_cons]
    tauto
  | case2 x' xs y ys h1 h2 ih =>
    rw [referenceMerge, if_neg h1, if_pos h2, List.mem_cons, ih]
    simp only [List.mem_cons]
    tauto
  | case3 x' xs y ys h1 h2 ih =>
    have hxy : x' = y := by omega
    subst hxy
    rw [referenceMerge, if_neg h1, if_neg h2, List.mem_cons, ih]
    simp only [List.mem_cons]
    tauto
  | case4 ys => simp [referenceMerge]
  | case5 xs h => 
    cases xs with
    | nil => simp [referenceMerge]
    | cons x' xs' => simp [referenceMerge]

theorem sorted_referenceMerge (a b : List Int) (ha : a.Sorted (· < ·))
    (hb : b.Sorted (· < ·)) : (referenceMerge a b).Sorted (· < ·) := by
  induction a, b using referenceMerge.induct with
  | case1 x' xs y ys h ih =>
    rw [referenceMerge, if_pos h]
    have ha' := List.sorted_cons.1 ha
    have hb' := List.sorted_cons.1 hb
    refine List.sorted_cons.2 ⟨?_, ih ha'.2 hb⟩
    intro z hz
    rcases (mem_referenceMerge _ _ z).1 hz with h1 | h1
    · exact ha'.1 z h1
    · rcases List.mem_cons.1 h1 with h2 | h2
      · rw [h2]
        exact h
      · exact lt_trans h (hb'.1 z h2)
  | case2 x' xs y ys h1 h2 ih =>
    rw [referenceMerge, if_neg h1, if_pos h2]
    have ha' := List.sorted_cons.1 ha
    have hb' := List.sorted_cons.1 hb
    refine List.sorted_cons.2 ⟨?_, ih ha hb'.2⟩
    intro z hz
    rcases (mem_referenceMerge _ _ z).1 hz with h3 | h3
    · rcases List.mem_cons.1 h3 with h4 | h4
      · rw [h4]
        exact h2
      · exact lt_trans h2 (ha'.1 z h4)
    · exact hb'.1 z h3
  | case3 x' xs y ys h1 h2 ih =>
    have hxy : x' = y := by omega
    subst hxy
    rw [referenceMerge, if_neg h1, if_neg h2]
    have ha' := List.sorted_cons.1 ha
    have hb' := List.sorted_cons.1 hb
    refine List.sorted_cons.2 ⟨?_, ih ha'.2 hb'.2⟩
    intro z hz
    rcases (mem_referenceMerge _ _ z).1 hz with h3 | h3
    · exact ha'.1 z h3
    · exact hb'.1 z h3
  | case4 ys =>
    rw [referenceMerge]
    exact hb
  | case5 xs h =>
    cases xs with
    | nil => simp [referenceMerge]
    | cons x' xs' => simpa [referenceMerge] using ha

theorem eq_of_sorted_of_mem_iff {l₁ l₂ : List Int} (h₁ : l₁.Sorted (· < ·))
    (h₂ : l₂.Sorted (· < ·)) (h : ∀ x, x ∈ l₁ ↔ x ∈ l₂) : l₁ = l₂ :=
  List.eq_of_perm_of_sorted ((List.perm_ext_iff_of_nodup h₁.nodup h₂.nodup).2 h) h₁ h₂

/-- C12: the tie-break rule. For strictly ascending `A` and `B`, `mergeUnique A B` is, as a
sequence, the output of the reference two-pointer merge, which emits the smaller head
and on equal heads emits one copy and advances both pointers. -/
theorem mergeUnique_eq_referenceMerge (A B : List Int) (hA : A.Sorted (· < ·))
    (hB : B.Sorted (· < ·)) : mergeUnique A B = referenceMerge A B := by
  apply eq_of_sorted_of_mem_iff
  · exact mergeUnique_sorted A B (hA.imp le_of_lt) (hB.imp le_of_lt)
  · exact sorted_referenceMerge A B hA hB
  · intro x
    rw [mem_mergeUnique, mem_referenceMerge]

theorem mergeUnique_eq_referenceMerge_witness :
    ([1, 3, 5] : List Int).Sorted (· < ·) ∧ ([2, 3, 4] : List Int).Sorted (· < ·) ∧
      referenceMerge [1, 3, 5] [2, 3, 4] = [1, 2, 3, 4, 5] ∧
      mergeUnique [1, 3, 5] [2, 3, 4] = referenceMerge [1, 3, 5] [2, 3, 4] :=
  ⟨by decide, by decide, by simp [referenceMerge],
    mergeUnique_eq_referenceMerge [1, 3, 5] [2, 3, 4] (by decide) (by decide)⟩

/-- C18: inputs that still contain duplicates. For `a` and `b` sorted in non-decreasing
order, repeated values allowed, `mergeUnique a b` is strictly ascending and has exactly
the elements of `a` and of `b`. -/
theorem mergeUnique_of_sorted_with_duplicates (a b : List Int) (ha : a.Sorted (· ≤ ·))
    (hb : b.Sorted (· ≤ ·)) :
    (mergeUnique a b).Sorted (· < ·) ∧ ∀ x, x ∈ mergeUnique a b ↔ x ∈ a ∨ x ∈ b :=
  ⟨mergeUnique_sorted a b ha hb, mem_mergeUnique a b⟩

theorem mergeUnique_of_sorted_with_duplicates_witness :
    ([1, 1, 3] : List Int).Sorted (· ≤ ·) ∧ ([3, 3, 4, 4] : List Int).Sorted (· ≤ ·) ∧
      mergeUnique [1, 1, 3] [3, 3, 4, 4] = [1, 3, 4] ∧
      ((mergeUnique [1, 1, 3] [3, 3, 4, 4]).Sorted (· < ·) ∧
        ∀ x, x ∈ mergeUnique [1, 1, 3] [3, 3, 4, 4] ↔ x ∈ [1, 1, 3] ∨ x ∈ [3, 3, 4, 4]) :=
  ⟨by decide, by decide, by simp [mergeUnique, mergeLoop, emit, drain],
    mergeUnique_of_sorted_with_duplicates [1, 1, 3] [3, 3, 4, 4] (by decide) (by decide)⟩

/-! ## The table operations: behaviour -/

theorem setState_of_some {tb : Container} {i : Nat} {s : StateNums} (st : SlotState)
    (h : tb[i]? = some s) : setState tb i st = some (tb.set i { s with state := st }) := by
  unfold setState
  rw [h]

theorem firstIndex_isSome {st : SlotState} {l : List StateNums} (i : Nat) {k : Nat}
    {sk : StateNums} (hk : l[k]? = some sk) (hs : sk.state = st) :
    ∃ j, firstIndex st l i = some j := by
  cases h : firstIndex st l i with
  | some j => exact ⟨j, rfl⟩
  | none => exact absurd hs (firstIndex_eq_none h k sk hk)

/-- The call `putNumbers` returns unless it is the first arrival of an empty sequence. -/
theorem putNumbers_returns {tb : Container} {s0 : StateNums} (numbers : List Int)
    (h0 : tb[0]? = some s0) (h : s0.state ≠ FREE ∨ numbers ≠ []) :
    ∃ r, putNumbers tb numbers = some r := by
  cases tb with
  | nil => simp at h0
  | cons c0 rest =>
    simp only [List.getElem?_cons_zero, Option.some.injEq] at h0
    subst h0
    unfold putNumbers
    simp only
    by_cases hf : c0.state = FREE
    · rw [if_pos hf]
      cases numbers with
      | nil =>
        rcases h with h | h
        · exact absurd hf h
        · exact absurd rfl h
      | cons x xs => exact ⟨_, rfl⟩
    · rw [if_neg hf]
      cases hi : firstIndex READY (c0 :: rest) 0 with
      | some i =>
        obtain ⟨j, si, hk, hj, _, _⟩ := firstIndex_eq_some hi
        simp only [Nat.zero_add] at hk
        subst hk
        simp only [setState_of_some MERGING hj, Option.map_some']
        exact ⟨_, rfl⟩
      | none =>
        cases hi' : firstIndex FREE (c0 :: rest) 0 with
        | some i => exact ⟨_, rfl⟩
        | none => exact ⟨_, rfl⟩

/-- C13: insertion with a partner. When slot zero is not `FREE` and some slot is `READY`,
`putNumbers` returns, sets the lowest-index `READY` slot `i` to `MERGING` keeping its
numbers, starts exactly the merge `mergeIndexAndNumbers(i, numbers)`, sends nothing on
`count`, and leaves every other slot as it was, so `numbers` is stored in no slot. -/
theorem putNumbers_with_partner (container : Container) (numbers : List Int)
    (s0 : StateNums) (k : Nat) (sk : StateNums) (h0 : container[0]? = some s0)
    (hnf : s0.state ≠ FREE) (hk : container[k]? = some sk) (hr : sk.state = READY) :
    ∃ (r : Outcome) (i : Nat) (si : StateNums),
      putNumbers container numbers = some r ∧
      container[i]? = some si ∧ si.state = READY ∧
      (∀ (j : Nat) (sj : StateNums), j < i → container[j]? = some sj → sj.state ≠ READY) ∧
      r.container[i]? = some ⟨MERGING, si.Numbers⟩ ∧
      (∀ j : Nat, j ≠ i → r.container[j]? = container[j]?) ∧
      r.container.length = container.length ∧
      r.sent = 0 ∧ r.launched = some (Launched.mergeIndexAndNumbers i numbers) := by
  obtain ⟨r, hput⟩ := putNumbers_returns numbers h0 (Or.inl hnf)
  rcases putNumbers_cases hput with ⟨z, x, xs, hz, hzf, _, _⟩ |
    ⟨z, i, si, hz, _, hi, hready, hmin, rfl⟩ |
    ⟨z, i, si, hz, _, hnone, _, _, _, _⟩ | ⟨z, hz, _, hall, _⟩
  · rw [h0] at hz
    cases hz
    exact absurd hzf hnf
  · refine ⟨_, i, si, hput, hi, hready, hmin, getElem?_set_of_some hi, ?_, by simp, rfl, rfl⟩
    intro j hj
    exact List.getElem?_set_ne (Ne.symm hj)
  · exact absurd hr (hnone k sk hk)
  · exact absurd hr (hall k sk hk).1

theorem putNumbers_with_partner_witness :
    ∃ (r : Outcome) (i : Nat) (si : StateNums),
      putNumbers [⟨MERGING, [1]⟩, ⟨READY, [3, 3]⟩, ⟨FREE, []⟩] [4, 5] = some r ∧
      ([⟨MERGING, [1]⟩, ⟨READY, [3, 3]⟩, ⟨FREE, []⟩] : Container)[i]? = some si ∧
      si.state = READY ∧
      (∀ (j : Nat) (sj : StateNums), j < i →
        ([⟨MERGING, [1]⟩, ⟨READY, [3, 3]⟩, ⟨FREE, []⟩] : Container)[j]? = some sj →
        sj.state ≠ READY) ∧
      r.container[i]? = some ⟨MERGING, si.Numbers⟩ ∧
      (∀ j : Nat, j ≠ i →
        r.container[j]? = ([⟨MERGING, [1]⟩, ⟨READY, [3, 3]⟩, ⟨FREE, []⟩] : Container)[j]?) ∧
      r.container.length = ([⟨MERGING, [1]⟩, ⟨READY, [3, 3]⟩, ⟨FREE, []⟩] : Container).length ∧
      r.sent = 0 ∧ r.launched = some (Launched.mergeIndexAndNumbers i [4, 5]) :=
  putNumbers_with_partner [⟨MERGING, [1]⟩, ⟨READY, [3, 3]⟩, ⟨FREE, []⟩] [4, 5]
    ⟨MERGING, [1]⟩ 1 ⟨READY, [3, 3]⟩ rfl (by decide) rfl rfl

/-- C14: insertion without a partner. When slot zero is not `FREE`, no slot is `READY`
and some slot is `FREE`, `putNumbers` returns, stores `numbers` in the lowest-index
`FREE` slot and sets it `READY`, sends nothing on `count`, starts no merge, and leaves
every other slot as it was. -/
theorem putNumbers_without_partner (container : Container) (numbers : List Int)
    (s0 : StateNums) (k : Nat) (sk : StateNums) (h0 : container[0]? = some s0)
    (hnf : s0.state ≠ FREE)
    (hnone : ∀ (j : Nat) (sj : StateNums), container[j]? = some sj → sj.state ≠ READY)
    (hk : container[k]? = some sk) (hf : sk.state = FREE) :
    ∃ (r : Outcome) (i : Nat) (si : StateNums),
      putNumbers container numbers = some r ∧
      container[i]? = some si ∧ si.state = FREE ∧
      (∀ (j : Nat) (sj : StateNums), j < i → container[j]? = some sj → sj.state ≠ FREE) ∧
      r.container[i]? = some ⟨READY, numbers⟩ ∧
      (∀ j : Nat, j ≠ i → r.container[j]? = container[j]?) ∧
      r.container.length = container.length ∧
      r.sent = 0 ∧ r.launched = none := by
  obtain ⟨r, hput⟩ := putNumbers_returns numbers h0 (Or.inl hnf)
  rcases putNumbers_cases hput with ⟨z, x, xs, hz, hzf, _, _⟩ |
    ⟨z, i, si, hz, _, hi, hready, _, _⟩ |
    ⟨z, i, si, hz, _, _, hi, hifree, hmin, rfl⟩ | ⟨z, hz, _, hall, _⟩
  · rw [h0] at hz
    cases hz
    exact absurd hzf hnf
  · exact absurd hready (hnone i si hi)
  · refine ⟨_, i, si, hput, hi, hifree, hmin, getElem?_set_of_some hi, ?_, by simp, rfl, rfl⟩
    intro j hj
    exact List.getElem?_set_ne (Ne.symm hj)
  · exact absurd hf (hall k sk hk).2

theorem putNumbers_without_partner_witness :
    ∃ (r : Outcome) (i : Nat) (si : StateNums),
      putNumbers [⟨MERGING, [1]⟩, ⟨MERGING, [2]⟩, ⟨FREE, []⟩] [3, 3] = some r ∧
      ([⟨MERGING, [1]⟩, ⟨MERGING, [2]⟩, ⟨FREE, []⟩] : Container)[i]? = some si ∧
      si.state = FREE ∧
      (∀ (j : Nat) (sj : StateNums), j < i →
        ([⟨MERGING, [1]⟩, ⟨MERGING, [2]⟩, ⟨FREE, []⟩] : Container)[j]? = some sj →
        sj.state ≠ FREE) ∧
      r.container[i]? = some ⟨READY, [3, 3]⟩ ∧
      (∀ j : Nat, j ≠ i →
        r.container[j]? = ([⟨MERGING, [1]⟩, ⟨MERGING, [2]⟩, ⟨FREE, []⟩] : Container)[j]?) ∧
      r.container.length = ([⟨MERGING, [1]⟩, ⟨MERGING, [2]⟩, ⟨FREE, []⟩] : Container).length ∧
      r.sent = 0 ∧ r.launched = none :=
  putNumbers_without_partner [⟨MERGING, [1]⟩, ⟨MERGING, [2]⟩, ⟨FREE, []⟩] [3, 3]
    ⟨MERGING, [1]⟩ 2 ⟨FREE, []⟩ rfl (by decide)
    (by
      intro j sj h
      rcases j with _ | _ | _ | j <;> simp at h <;> subst h <;> decide)
    rfl rfl

/-- The call `findPairs` always returns. -/
theorem findPairs_returns (tb : Container) : ∃ r, findPairs tb = some r := by
  unfold findPairs
  cases hl : findPairsLoop tb 0 false 0 with
  | none => exact ⟨_, rfl⟩
  | some p =>
    obtain ⟨ja, jk, sa, sk, hp, hlt, hja, hjk, _, _, _⟩ := findPairsLoop_false_some hl
    simp only [Nat.zero_add] at hp
    subst hp
    have hjk' : (tb.set ja { sa with state := MERGING })[jk]? = some sk := by
      rw [List.getElem?_set_ne (by omega), hjk]
    simp only [setState_of_some MERGING hja, Option.some_bind,
      setState_of_some MERGING hjk', Option.map_some']
    exact ⟨_, rfl⟩

/-- C15: `findPairs`. If two slots are `READY` it sets exactly the two lowest-index
`READY` slots `a < i` to `MERGING`, starts exactly the merge `mergeTwoIndexes(a, i)` and
changes nothing else; if fewer than two slots are `READY` it starts no merge and
leaves the table as it was. At most one pair is started per call. -/
theorem findPairs_behaviour (tb : Container) :
    ((∃ (j1 j2 : Nat) (s1 s2 : StateNums), j1 ≠ j2 ∧ tb[j1]? = some s1 ∧
        tb[j2]? = some s2 ∧ s1.state = READY ∧ s2.state = READY) →
      ∃ (r : Outcome) (a i : Nat) (sa si : StateNums),
        findPairs tb = some r ∧ a < i ∧
        tb[a]? = some sa ∧ tb[i]? = some si ∧ sa.state = READY ∧ si.state = READY ∧
        (∀ (j : Nat) (sj : StateNums), j < i → j ≠ a → tb[j]? = some sj →
          sj.state ≠ READY) ∧
        r.container[a]? = some ⟨MERGING, sa.Numbers⟩ ∧
        r.container[i]? = some ⟨MERGING, si.Numbers⟩ ∧
        (∀ j : Nat, j ≠ a → j ≠ i → r.container[j]? = tb[j]?) ∧
        r.container.length = tb.length ∧
        r.sent = 0 ∧ r.launched = some (Launched.mergeTwoIndexes a i)) ∧
    ((¬ ∃ (j1 j2 : Nat) (s1 s2 : StateNums), j1 ≠ j2 ∧ tb[j1]? = some s1 ∧
        tb[j2]? = some s2 ∧ s1.state = READY ∧ s2.state = READY) →
      findPairs tb = some ⟨tb, 0, none⟩) := by
  obtain ⟨r, hr⟩ := findPairs_returns tb
  rcases findPairs_cases hr with ⟨hone, rfl⟩ |
    ⟨a, i, sa, si, hlt, ha, hi, hra, hri, hmin, rfl⟩
  · refine ⟨?_, fun _ => hr⟩
    rintro ⟨j1, j2, s1, s2, hne, h1, h2, hr1, hr2⟩
    exact absurd (hone j1 j2 s1 s2 h1 h2 hr1 hr2) hne
  · refine ⟨fun _ => ?_, fun hno => ?_⟩
    · have hi' : (tb.set a { sa with state := MERGING })[i]? = some si := by
        rw [List.getElem?_set_ne (by omega), hi]
      refine ⟨_, a, i, sa, si, hr, hlt, ha, hi, hra, hri, hmin, ?_, getElem?_set_of_some hi',
        ?_, by simp, rfl, rfl⟩
      · show ((tb.set a { sa with state := MERGING }).set i _)[a]? = _
        rw [List.getElem?_set_ne (by omega), getElem?_set_of_some ha]
      · intro j hja hji
        show ((tb.set a { sa with state := MERGING }).set i _)[j]? = _
        rw [List.getElem?_set_ne (Ne.symm hji), List.getElem?_set_ne (Ne.symm hja)]
    · exact absurd ⟨a, i, sa, si, by omega, ha, hi, hra, hri⟩ hno

theorem findPairs_behaviour_witness :
    (∃ (j1 j2 : Nat) (s1 s2 : StateNums), j1 ≠ j2 ∧
        ([⟨MERGING, [1]⟩, ⟨READY, [2]⟩, ⟨READY, [3]⟩, ⟨READY, [4]⟩] : Container)[j1]? =
          some s1 ∧
        ([⟨MERGING, [1]⟩, ⟨READY, [2]⟩, ⟨READY, [3]⟩, ⟨READY, [4]⟩] : Container)[j2]? =
          some s2 ∧ s1.state = READY ∧ s2.state = READY) ∧
      findPairs [⟨MERGING, [1]⟩, ⟨READY, [2]⟩, ⟨READY, [3]⟩, ⟨READY, [4]⟩] =
        some ⟨[⟨MERGING, [1]⟩, ⟨MERGING, [2]⟩, ⟨MERGING, [3]⟩, ⟨READY, [4]⟩], 0,
          some (Launched.mergeTwoIndexes 1 2)⟩ ∧
      ∃ (r : Outcome) (a i : Nat) (sa si : StateNums),
        findPairs [⟨MERGING, [1]⟩, ⟨READY, [2]⟩, ⟨READY, [3]⟩, ⟨READY, [4]⟩] = some r ∧
        a < i ∧
        ([⟨MERGING, [1]⟩, ⟨READY, [2]⟩, ⟨READY, [3]⟩, ⟨READY, [4]⟩] : Container)[a]? =
          some sa ∧
        ([⟨MERGING, [1]⟩, ⟨READY, [2]⟩, ⟨READY, [3]⟩, ⟨READY, [4]⟩] : Container)[i]? =
          some si ∧ sa.state = READY ∧ si.state = READY ∧
        (∀ (j : Nat) (sj : StateNums), j < i → j ≠ a →
          ([⟨MERGING, [1]⟩, ⟨READY, [2]⟩, ⟨READY, [3]⟩, ⟨READY, [4]⟩] : Container)[j]? =
            some sj → sj.state ≠ READY) ∧
        r.container[a]? = some ⟨MERGING, sa.Numbers⟩ ∧
        r.container[i]? = some ⟨MERGING, si.Numbers⟩ ∧
        (∀ j : Nat, j ≠ a → j ≠ i → r.container[j]? =
          ([⟨MERGING, [1]⟩, ⟨READY, [2]⟩, ⟨READY, [3]⟩, ⟨READY, [4]⟩] : Container)[j]?) ∧
        r.container.length =
          ([⟨MERGING, [1]⟩, ⟨READY, [2]⟩, ⟨READY, [3]⟩, ⟨READY, [4]⟩] : Container).length ∧
        r.sent = 0 ∧ r.launched = some (Launched.mergeTwoIndexes a i) :=
  ⟨⟨1, 2, ⟨READY, [2]⟩, ⟨READY, [3]⟩, by decide, rfl, rfl, rfl, rfl⟩, by decide,
    (findPairs_behaviour [⟨MERGING, [1]⟩, ⟨READY, [2]⟩, ⟨READY, [3]⟩, ⟨READY, [4]⟩]).1
      ⟨1, 2, ⟨READY, [2]⟩, ⟨READY, [3]⟩, by decide, rfl, rfl, rfl, rfl⟩⟩

/-- C16: completion of a merge into an existing slot. For a slot index `i` of the table,
`mergeIndexAndNumbers(i, B)` leaves slot `i` `READY` holding `mergeUnique` of its previous
numbers and `B`, sends exactly once on `count`, and leaves every other slot as it
was. -/
theorem mergeIndexAndNumbers_completion (container : Container) (i : Nat) (B : List Int)
    (sA : StateNums) (hi : container[i]? = some sA) :
    ∃ r : Outcome, mergeIndexAndNumbers container i B = some r ∧
      r.container[i]? = some ⟨READY, mergeUnique sA.Numbers B⟩ ∧
      r.sent = 1 ∧ r.launched = none ∧
      (∀ j : Nat, j ≠ i → r.container[j]? = container[j]?) ∧
      r.container.length = container.length := by
  refine ⟨⟨container.set i ⟨READY, mergeUnique sA.Numbers B⟩, 1, none⟩, ?_,
    getElem?_set_of_some hi, rfl, rfl, ?_, by simp⟩
  · unfold mergeIndexAndNumbers
    rw [hi]
  · intro j hj
    exact List.getElem?_set_ne (Ne.symm hj)

theorem mergeIndexAndNumbers_completion_witness :
    ([⟨MERGING, [1, 3, 5]⟩, ⟨READY, [7]⟩] : Container)[0]? = some ⟨MERGING, [1, 3, 5]⟩ ∧
      mergeIndexAndNumbers [⟨MERGING, [1, 3, 5]⟩, ⟨READY, [7]⟩] 0 [2, 3, 4] =
        some ⟨[⟨READY, [1, 2, 3, 4, 5]⟩, ⟨READY, [7]⟩], 1, none⟩ ∧
      ∃ r : Outcome,
        mergeIndexAndNumbers [⟨MERGING, [1, 3, 5]⟩, ⟨READY, [7]⟩] 0 [2, 3, 4] = some r ∧
        r.container[0]? = some ⟨READY, mergeUnique [1, 3, 5] [2, 3, 4]⟩ ∧
        r.sent = 1 ∧ r.launched = none ∧
        (∀ j : Nat, j ≠ 0 →
          r.container[j]? = ([⟨MERGING, [1, 3, 5]⟩, ⟨READY, [7]⟩] : Container)[j]?) ∧
        r.container.length = ([⟨MERGING, [1, 3, 5]⟩, ⟨READY, [7]⟩] : Container).length :=
  ⟨rfl, by simp [mergeIndexAndNumbers, mergeUnique, mergeLoop, emit, drain],
    mergeIndexAndNumbers_completion [⟨MERGING, [1, 3, 5]⟩, ⟨READY, [7]⟩] 0 [2, 3, 4]
      ⟨MERGING, [1, 3, 5]⟩ rfl⟩

/-- C17: completion of a merge of two slots. For distinct slot indices `i` and `j` of the
table, `mergeTwoIndexes(i, j)` leaves slot `i` `READY` holding `mergeUnique` of the
previous numbers of slots `i` and `j`, sets slot `j` to `FREE`, sends exactly once on
`count`, and leaves every other slot as it was. -/
theorem mergeTwoIndexes_completion (container : Container) (i j : Nat) (sA sB : StateNums)
    (hne : i ≠ j) (hi : container[i]? = some sA) (hj : container[j]? = some sB) :
    ∃ r : Outcome, mergeTwoIndexes container i j = some r ∧
      r.container[i]? = some ⟨READY, mergeUnique sA.Numbers sB.Numbers⟩ ∧
      r.container[j]? = some ⟨FREE, sB.Numbers⟩ ∧
      r.sent = 1 ∧ r.launched = none ∧
      (∀ k : Nat, k ≠ i → k ≠ j → r.container[k]? = container[k]?) ∧
      r.container.length = container.length := by
  have hj' : (container.set i ⟨READY, mergeUnique sA.Numbers sB.Numbers⟩)[j]? = some sB := by
    rw [List.getElem?_set_ne hne, hj]
  refine ⟨⟨(container.set i ⟨READY, mergeUnique sA.Numbers sB.Numbers⟩).set j
    ⟨FREE, sB.Numbers⟩, 1, none⟩, ?_, ?_, getElem?_set_of_some hj', rfl, rfl, ?_, by simp⟩
  · unfold mergeTwoIndexes
    simp only [hi, hj, setState_of_some FREE hj', Option.map_some']
  · show ((container.set i _).set j _)[i]? = _
    rw [List.getElem?_set_ne (Ne.symm hne), getElem?_set_of_some hi]
  · intro k hki hkj
    show ((container.set i _).set j _)[k]? = _
    rw [List.getElem?_set_ne (Ne.symm hkj), List.getElem?_set_ne (Ne.symm hki)]

theorem mergeTwoIndexes_completion_witness :
    (0 : Nat) ≠ 2 ∧
      mergeTwoIndexes [⟨MERGING, [1, 3, 5]⟩, ⟨READY, [7]⟩, ⟨MERGING, [2, 3, 4]⟩] 0 2 =
        some ⟨[⟨READY, [1, 2, 3, 4, 5]⟩, ⟨READY, [7]⟩, ⟨FREE, [2, 3, 4]⟩], 1, none⟩ ∧
      ∃ r : Outcome,
        mergeTwoIndexes [⟨MERGING, [1, 3, 5]⟩, ⟨READY, [7]⟩, ⟨MERGING, [2, 3, 4]⟩] 0 2 =
          some r ∧
        r.container[0]? = some ⟨READY, mergeUnique [1, 3, 5] [2, 3, 4]⟩ ∧
        r.container[2]? = some ⟨FREE, [2, 3, 4]⟩ ∧
        r.sent = 1 ∧ r.launched = none ∧
        (∀ k : Nat, k ≠ 0 → k ≠ 2 → r.container[k]? =
          ([⟨MERGING, [1, 3, 5]⟩, ⟨READY, [7]⟩, ⟨MERGING, [2, 3, 4]⟩] : Container)[k]?) ∧
        r.container.length =
          ([⟨MERGING, [1, 3, 5]⟩, ⟨READY, [7]⟩, ⟨MERGING, [2, 3, 4]⟩] : Container).length :=
  ⟨by decide, by simp [mergeTwoIndexes, setState, mergeUnique, mergeLoop, emit, drain],
    mergeTwoIndexes_completion [⟨MERGING, [1, 3, 5]⟩, ⟨READY, [7]⟩, ⟨MERGING, [2, 3, 4]⟩] 0 2
      ⟨MERGING, [1, 3, 5]⟩ ⟨MERGING, [2, 3, 4]⟩ (by decide) rfl rfl⟩

/-! ## Slot zero, and room for every arrival -/

theorem Inv.arrived_ne_nil_of_zero {n : Nat} {s : Sys} (hI : Inv n s) {s0 : StateNums}
    (h0 : s.container[0]? = some s0) (hnf : s0.state ≠ FREE) : s.arrived ≠ [] := by
  have h1 := nonFree_pos h0 hnf
  have h2 := hI.occupied
  intro h
  rw [h] at h2
  simp at h2
  omega

theorem Inv.slot_available {n : Nat} {s : Sys} (hI : Inv n s) (hlt : s.arrived.length < n) :
    ¬ ∀ (j : Nat) (sj : StateNums), s.container[j]? = some sj →
      sj.state ≠ READY ∧ sj.state ≠ FREE := by
  intro hall
  have h1 := nonFree_eq_length fun j sj hj => (hall j sj hj).2
  have h2 := hI.occupied
  have h3 := hI.len
  split at h3 <;> omega

/-- C19: slot zero is occupied first and never released. In every reachable state: if any
slot is not `FREE` then slot zero is not `FREE`; every started `mergeTwoIndexes` has
`indexA < indexB`, as has every merge a call of `findPairs` starts, so the slot it sets
`FREE` is never slot zero; while slot zero is `FREE` no sequence has been handed to
`putNumbers`; and a step from a state whose slot zero is not `FREE` leaves it not
`FREE`. Hence the first-arrival branch is taken at most once per request. -/
theorem slot_zero_first_and_kept (n : Nat) (s : Sys) (h : Reachable n s) :
    (∀ (i : Nat) (slot s0 : StateNums), s.container[i]? = some slot → slot.state ≠ FREE →
        s.container[0]? = some s0 → s0.state ≠ FREE) ∧
      (∀ i j : Nat, Launched.mergeTwoIndexes i j ∈ s.merges → i < j) ∧
      (∀ (r : Outcome) (a b : Nat), findPairs s.container = some r →
        r.launched = some (Launched.mergeTwoIndexes a b) → a < b) ∧
      (∀ s0 : StateNums, s.container[0]? = some s0 → s0.state = FREE → s.arrived = []) ∧
      ∀ (t : Sys) (s0 t0 : StateNums), Step n s t → s.container[0]? = some s0 →
        s0.state ≠ FREE → t.container[0]? = some t0 → t0.state ≠ FREE := by
  have hI := h.satisfies_inv
  refine ⟨?_, hI.ordered, ?_, fun s0 h0 hf => (hI.freshZero s0 h0 hf).2, ?_⟩
  · intro i slot s0 hi hs h0
    exact hI.zero_not_free_of_merging hi hs h0
  · intro r a b hr hl
    rcases findPairs_cases hr with ⟨_, rfl⟩ | ⟨a', i', sa, si, hlt, _, _, _, _, _, rfl⟩
    · cases hl
    · cases hl
      exact hlt
  · intro t s0 t0 hst h0 hnf ht0 hf
    have hm := Step.toMove hI hst
    have hIt := Move.keeps_inv hI hm
    have hne := hI.arrived_ne_nil_of_zero h0 hnf
    have hnil := (hIt.freshZero t0 ht0 hf).2
    rcases Move.arrived hm with e | ⟨l, e⟩
    · rw [e] at hnil
      exact hne hnil
    · rw [e] at hnil
      cases hnil

theorem slot_zero_first_and_kept_witness :
    (∀ (i : Nat) (slot s0 : StateNums),
        ([⟨MERGING, [1]⟩, ⟨READY, [3, 3]⟩, ⟨FREE, []⟩] : Container)[i]? = some slot →
        slot.state ≠ FREE →
        ([⟨MERGING, [1]⟩, ⟨READY, [3, 3]⟩, ⟨FREE, []⟩] : Container)[0]? = some s0 →
        s0.state ≠ FREE) ∧
      (∀ i j : Nat,
        Launched.mergeTwoIndexes i j ∈ [Launched.mergeIndexAndNumbers 0 [2]] → i < j) ∧
      (∀ (r : Outcome) (a b : Nat),
        findPairs [⟨MERGING, [1]⟩, ⟨READY, [3, 3]⟩, ⟨FREE, []⟩] = some r →
        r.launched = some (Launched.mergeTwoIndexes a b) → a < b) ∧
      (∀ s0 : StateNums,
        ([⟨MERGING, [1]⟩, ⟨READY, [3, 3]⟩, ⟨FREE, []⟩] : Container)[0]? = some s0 →
        s0.state = FREE → ([[3, 3], [2], [1]] : List (List Int)) = []) ∧
      ∀ (t : Sys) (s0 t0 : StateNums),
        Step 3 ⟨[⟨MERGING, [1]⟩, ⟨READY, [3, 3]⟩, ⟨FREE, []⟩], 1,
          [Launched.mergeIndexAndNumbers 0 [2]], 0, 0, [[3, 3], [2], [1]]⟩ t →
        ([⟨MERGING, [1]⟩, ⟨READY, [3, 3]⟩, ⟨FREE, []⟩] : Container)[0]? = some s0 →
        s0.state ≠ FREE → t.container[0]? = some t0 → t0.state ≠ FREE :=
  slot_zero_first_and_kept 3 _ run_parked_duplicates

/-- A request with two sources of which one has answered `[1,3,5]`. -/
theorem run_one_of_two :
    Reachable 2 ⟨[⟨READY, [1, 3, 5]⟩, ⟨FREE, []⟩], 1, [], 0, 0, [[1, 3, 5]]⟩ :=
  Reachable.step _ _ Reachable.init
    (Step.arrive (Sys.init 2) [1, 3, 5] ⟨[⟨READY, [1, 3, 5]⟩, ⟨FREE, []⟩], 1, none⟩
      (by decide) (by decide))

/-- The occupancy bound and what it gives the next call of `putNumbers`. In every
reachable state in which fewer than `n` sequences have been handed over, the number of
slots that are not `FREE` is at most the number of sequences handed over, so a slot is
`READY` or `FREE`; the call returns unless slot zero is `FREE` and the sequence is empty;
and a call that returns has filled slot zero, found a `READY` slot to merge with, or
parked the sequence in a `FREE` slot: it never runs through both scans. -/
theorem room_for_next_arrival (n : Nat) (s : Sys) (h : Reachable n s)
    (hlt : s.arrived.length < n) :
    nonFree s.container ≤ s.arrived.length ∧
      (∃ (i : Nat) (slot : StateNums), s.container[i]? = some slot ∧
        (slot.state = READY ∨ slot.state = FREE)) ∧
      ∀ numbers : List Int,
        ((∀ s0 : StateNums, s.container[0]? = some s0 → s0.state = FREE → numbers ≠ []) →
          ∃ r, putNumbers s.container numbers = some r) ∧
        ∀ r : Outcome, putNumbers s.container numbers = some r →
          (∃ (s0 : StateNums) (x : Int) (xs : List Int), s.container[0]? = some s0 ∧
            s0.state = FREE ∧ numbers = x :: xs ∧
            r = ⟨s.container.set 0 ⟨READY, x :: uniqueLoop x xs⟩, 1, none⟩) ∨
          (∃ (i : Nat) (si : StateNums), s.container[i]? = some si ∧ si.state = READY ∧
            r = ⟨s.container.set i { si with state := MERGING }, 0,
              some (Launched.mergeIndexAndNumbers i numbers)⟩) ∨
          (∃ (i : Nat) (si : StateNums), s.container[i]? = some si ∧ si.state = FREE ∧
            r = ⟨s.container.set i ⟨READY, numbers⟩, 0, none⟩) := by
  have hI := h.satisfies_inv
  have hav := hI.slot_available hlt
  refine ⟨hI.occupied, ?_, fun numbers => ⟨fun hne => ?_, fun r hr => ?_⟩⟩
  · by_contra hno
    apply hav
    intro j sj hj
    constructor
    · intro hs
      exact hno ⟨j, sj, hj, Or.inl hs⟩
    · intro hs
      exact hno ⟨j, sj, hj, Or.inr hs⟩
  · obtain ⟨s0, h0⟩ := hI.exists_zero
    by_cases hf : s0.state = FREE
    · exact putNumbers_returns numbers h0 (Or.inr (hne s0 h0 hf))
    · exact putNumbers_returns numbers h0 (Or.inl hf)
  · rcases putNumbers_cases hr with ⟨s0, x, xs, h0, hf, hnum, hres⟩ |
      ⟨_, i, si, _, _, hi, hready, _, hres⟩ |
      ⟨_, i, si, _, _, _, hi, hifree, _, hres⟩ | ⟨_, _, _, hall, _⟩
    · exact Or.inl ⟨s0, x, xs, h0, hf, hnum, hres⟩
    · exact Or.inr (Or.inl ⟨i, si, hi, hready, hres⟩)
    · exact Or.inr (Or.inr ⟨i, si, hi, hifree, hres⟩)
    · exact absurd hall hav

/-- An empty sequence that is not the first arrival is handled: with slot zero `READY` it
is merged into slot zero. -/
theorem room_for_next_arrival_later_empty :
    ([[1, 3, 5]] : List (List Int)).length < 2 ∧
      putNumbers [⟨READY, [1, 3, 5]⟩, ⟨FREE, []⟩] [] =
        some ⟨[⟨MERGING, [1, 3, 5]⟩, ⟨FREE, []⟩], 0,
          some (Launched.mergeIndexAndNumbers 0 [])⟩ ∧
      ∃ r, putNumbers [⟨READY, [1, 3, 5]⟩, ⟨FREE, []⟩] [] = some r :=
  ⟨by decide, by decide,
    ((room_for_next_arrival 2 _ run_one_of_two (by decide)).2.2 []).1
      (fun s0 h0 hf => by
        simp only [List.getElem?_cons_zero, Option.some.injEq] at h0
        subst h0
        cases hf)⟩

/-- C20, evaluated at the failing input: the initial state of a request with two sources
is reachable, no sequence has been handed over and the occupancy bound holds, yet the
next call of `putNumbers`, handed the empty sequence of a source that answered with an
empty list, panics at `numbers[0]`: it does not fill slot zero, does not use a `READY`
slot and does not park the sequence in a `FREE` slot. -/
theorem putNumbers_next_call_empty :
    Reachable 2 (Sys.init 2) ∧ (Sys.init 2).arrived.length < 2 ∧
      nonFree (Sys.init 2).container ≤ (Sys.init 2).arrived.length ∧
      putNumbers (Sys.init 2).container (sortInts []) = none :=
  ⟨Reachable.init, by decide, by decide, by decide⟩

end Numserv
